import Mathlib

/-! Thompson-style NFA construction (LexicalAnalysis.cpp).


A shallow embedding of the automaton builders of `src/LexicalAnalysis.cpp`
(`buildSymbolNFA`, `buildClosureNFA`, `buildConcatNFA`, `buildUnionNFA`,
`buildStringLiteralNFA`) together with an epsilon-closure simulator used as the
acceptance oracle of the specification.

Conventions of the embedding:
* `QChar` is a Lean `Char`, `QString` a list of characters, `QList` a `List`.
* C++ `int` ids are `Int`; the builders only add list lengths to ids, so no
  32-bit wrap-around is modelled (lists are far shorter than `2^31`).
* `QMap<int,int>` is read only through `operator[]`, which yields `0` for a key
  that was never assigned; the map is therefore a total function `Int → Int`.
-/

namespace CppCompilerFrontend

/-- A `QString`, as the sequence of its characters. -/
abbrev QString := List Char

/-- The label `"ε"` written on every non-consuming transition. -/
def epsilon : QString := ['ε']

/-- `QString(c)`: the one-character string made from a `QChar`. -/
def QString.ofChar (c : Char) : QString := [c]

/-- An automaton vertex: `struct NFAState { int id; bool isAccept; }`. -/
structure NFAState where
  id : Int
  isAccept : Bool
  deriving DecidableEq, Repr

/-- A labelled edge: `struct NFATransition { int from; QString symbol; int to; }`.
The fields `from` and `to` of the source are spelled `from_` and `to_` (both words are
reserved in Lean). -/
structure NFATransition where
  from_ : Int
  symbol : QString
  to_ : Int
  deriving DecidableEq, Repr

/-- An automaton fragment with the four members the builders read and write. -/
structure NFA where
  states : List NFAState
  transitions : List NFATransition
  startState : Int
  acceptState : Int
  deriving DecidableEq, Repr

/-- Modelled from the spec: the declaration of `NFA::getNextId` (LexicalAnalysis.h) is
not among the sources. The spec describes the allocator as monotonic, starting at 0 for
every new automaton, with no reuse: a call returns the counter and increments it. The
counter is threaded explicitly; no builder reads it from a finished fragment. -/
def getNextId (counter : Int) : Int × Int := (counter, counter + 1)

/-- The counter value of a freshly declared `NFA nfa;` (spec: "starts at 0"). -/
def freshCounter : Int := 0

/-- A `QMap<int,int>` seen through `operator[]`. -/
abbrev QMap := Int → Int

/-- A default-constructed `QMap<int,int>`: every lookup yields `0`. -/
def QMap.empty : QMap := fun _ => 0

/-- Reading `idMap[k]`. -/
def QMap.get (m : QMap) (k : Int) : Int := m k

/-- The assignment `idMap[k] = v`. -/
def QMap.set (m : QMap) (k v : Int) : QMap := fun x => if x = k then v else m x

/-- `buildSymbolNFA(QChar c)`. -/
def buildSymbolNFA (c : Char) : NFA :=
  let a0 := getNextId freshCounter
  let s0 := a0.1
  let a1 := getNextId a0.2
  let s1 := a1.1
  { states := [⟨s0, false⟩, ⟨s1, true⟩]
    transitions := [⟨s0, QString.ofChar c, s1⟩]
    startState := s0
    acceptState := s1 }

/-- Loop state of the state-import loop: the id map, `nextId`, and `result.states`. -/
structure ImportState where
  idMap : QMap
  nextId : Int
  states : List NFAState

/-- One iteration of `idMap[s.id] = nextId++; result.states.append({idMap[s.id], s.isAccept});`. -/
def importState (st : ImportState) (s : NFAState) : ImportState :=
  let idMap := st.idMap.set s.id st.nextId
  { idMap := idMap
    nextId := st.nextId + 1
    states := st.states ++ [⟨idMap.get s.id, s.isAccept⟩] }

/-- The loop `for (const auto& s : states) { ... }` importing states (the lambda
`addStates` of `buildUnionNFA`, and the same loop written inline in `buildClosureNFA`). -/
def addStates (states : List NFAState) (st : ImportState) : ImportState :=
  states.foldl importState st

/-- The two fresh states appended before any import: `{0,false}` and `{1,true}`. -/
def freshPair : ImportState :=
  { idMap := QMap.empty, nextId := 2, states := [⟨0, false⟩, ⟨1, true⟩] }

/-- The inner loop of the closure: `if (rs.id == target) rs.isAccept = false;`. -/
def demote (target : Int) (rs : List NFAState) : List NFAState :=
  rs.map (fun r => if r.id = target then { r with isAccept := false } else r)

/-- One iteration of the accept-state loop of `buildClosureNFA`. -/
def closureAcceptStep (idMap : QMap) (start newAccept : Int)
    (acc : List NFATransition × List NFAState) (s : NFAState) :
    List NFATransition × List NFAState :=
  if s.isAccept then
    (acc.1 ++ [⟨idMap.get s.id, epsilon, idMap.get start⟩,
               ⟨idMap.get s.id, epsilon, newAccept⟩],
     demote (idMap.get s.id) acc.2)
  else acc

/-- Copying a transition through the id map: `{idMap[t.from], t.symbol, idMap[t.to]}`. -/
def remap (idMap : QMap) (t : NFATransition) : NFATransition :=
  ⟨idMap.get t.from_, t.symbol, idMap.get t.to_⟩

/-- The id map of `buildClosureNFA(n)` once all states are imported. -/
def closureIdMap (n : NFA) : QMap := (addStates n.states freshPair).idMap

/-- `buildClosureNFA(const NFA& n)`. -/
def buildClosureNFA (n : NFA) : NFA :=
  let imported := addStates n.states freshPair
  let newStart : Int := 0
  let newAccept : Int := 1
  let idMap := imported.idMap
  let ts0 : List NFATransition :=
    [⟨newStart, epsilon, idMap.get n.startState⟩, ⟨newStart, epsilon, newAccept⟩]
  let looped := n.states.foldl (closureAcceptStep idMap n.startState newAccept)
    (ts0, imported.states)
  { states := looped.2
    transitions := looped.1 ++ n.transitions.map (remap idMap)
    startState := newStart
    acceptState := newAccept }

/-- `buildConcatNFA(const NFA& n1, const NFA& n2)`. -/
def buildConcatNFA (n1 n2 : NFA) : NFA :=
  let offset : Int := n1.states.length
  let states := n1.states ++ n2.states.map (fun s => ⟨s.id + offset, s.isAccept⟩)
  let states := demote n1.acceptState states
  { states := states
    transitions := n1.transitions ++ [⟨n1.acceptState, epsilon, n2.startState + offset⟩]
      ++ n2.transitions.map (fun t => ⟨t.from_ + offset, t.symbol, t.to_ + offset⟩)
    startState := n1.startState
    acceptState := n2.acceptState + offset }

/-- The id map of `buildUnionNFA(n1, n2)` after both `addStates` calls. -/
def unionIdMap (n1 n2 : NFA) : QMap :=
  (addStates n2.states (addStates n1.states freshPair)).idMap

/-- The loop `if (s.isAccept) result.transitions.append({idMap[s.id], "ε", newAccept});`. -/
def acceptEdges (idMap : QMap) (newAccept : Int) (states : List NFAState) :
    List NFATransition :=
  (states.filter (fun s => s.isAccept)).map (fun s => ⟨idMap.get s.id, epsilon, newAccept⟩)

/-- `buildUnionNFA(const NFA& n1, const NFA& n2)`. -/
def buildUnionNFA (n1 n2 : NFA) : NFA :=
  let imported := addStates n2.states (addStates n1.states freshPair)
  let newStart : Int := 0
  let newAccept : Int := 1
  let idMap := imported.idMap
  { states := imported.states
    transitions :=
      [⟨newStart, epsilon, idMap.get n1.startState⟩, ⟨newStart, epsilon, idMap.get n2.startState⟩]
        ++ acceptEdges idMap newAccept n1.states
        ++ acceptEdges idMap newAccept n2.states
        ++ n1.transitions.map (remap idMap)
        ++ n2.transitions.map (remap idMap)
    startState := newStart
    acceptState := newAccept }

/-- Loop state of `buildStringLiteralNFA`: the allocator counter, `lastState`, and the
states and transitions appended so far. -/
structure LiteralState where
  counter : Int
  lastState : Int
  states : List NFAState
  transitions : List NFATransition

/-- One iteration of the character loop of `buildStringLiteralNFA`. -/
def literalStep (st : LiteralState) (c : Char) : LiteralState :=
  let a := getNextId st.counter
  let currentState := a.1
  { counter := a.2
    lastState := currentState
    states := st.states ++ [⟨currentState, false⟩]
    transitions := st.transitions ++ [⟨st.lastState, QString.ofChar c, currentState⟩] }

/-- The state of `buildStringLiteralNFA` when the character loop is entered. -/
def literalInit : LiteralState :=
  let a := getNextId freshCounter
  { counter := a.2, lastState := a.1, states := [⟨a.1, false⟩], transitions := [] }

/-- `buildStringLiteralNFA(const QString& str)`. The read `nfa.states[0].id` is the id
of the first appended state, which always exists. -/
def buildStringLiteralNFA (str : QString) : NFA :=
  let st := str.foldl literalStep literalInit
  let a := getNextId st.counter
  let acceptState := a.1
  let states := st.states ++ [⟨acceptState, true⟩]
  { states := states
    transitions := st.transitions ++ [⟨st.lastState, epsilon, acceptState⟩]
    startState := (states.head?.map (fun s => s.id)).getD 0
    acceptState := acceptState }

/-! ## The acceptance oracle: epsilon-closure simulation -/

/-- One round of following `"ε"`-labelled transitions out of the set `S`. -/
def epsStep (ts : List NFATransition) (S : List Int) : List Int :=
  S ++ (ts.filter (fun t => decide (t.symbol = epsilon) && decide (t.from_ ∈ S))).map
    (fun t => t.to_)

/-- The epsilon closure of `S`: `epsStep` repeated once per transition, which is enough
to reach its fixed point. -/
def epsClosure (ts : List NFATransition) (S : List Int) : List Int :=
  (epsStep ts)^[ts.length] S

/-- Consuming the character `c` from the set `S`: follow the transitions labelled with
exactly `c`. A transition labelled `"ε"` never consumes input. -/
def move (ts : List NFATransition) (S : List Int) (c : Char) : List Int :=
  (ts.filter (fun t => decide (t.symbol ≠ epsilon) && decide (t.symbol = QString.ofChar c)
    && decide (t.from_ ∈ S))).map (fun t => t.to_)

/-- Subset simulation of the input `w` from the epsilon-closed set `S`. -/
def simulate (ts : List NFATransition) : List Int → List Char → List Int
  | S, [] => S
  | S, c :: w => simulate ts (epsClosure ts (move ts S c)) w

/-- The specification's oracle: begin at `startState`, follow `"ε"` transitions without
consuming input, follow a transition labelled with the next character to consume it,
and accept iff the declared `acceptState` is reachable when the input is used up. -/
def accepts (n : NFA) (w : List Char) : Bool :=
  decide (n.acceptState ∈ simulate n.transitions (epsClosure n.transitions [n.startState]) w)

/-- The identifier of some state of the fragment. -/
def IsStateId (n : NFA) (x : Int) : Prop := x ∈ n.states.map (fun s => s.id)

/-- The i-th state has id i. -/
def PositionalIds (n : NFA) : Prop :=
  n.states.map (fun s => s.id) = (List.range n.states.length).map (fun (i : Nat) => (i : Int))

/-- A well-formed fragment: the i-th state has id i, and the start id, the accept id and
every transition endpoint are ids of the fragment's own states. -/
def WellFormed (n : NFA) : Prop :=
  PositionalIds n ∧ IsStateId n n.startState ∧ IsStateId n n.acceptState ∧
    ∀ t ∈ n.transitions, IsStateId n t.from_ ∧ IsStateId n t.to_

instance (n : NFA) (x : Int) : Decidable (IsStateId n x) := by
  unfold IsStateId; infer_instance

instance (n : NFA) : Decidable (PositionalIds n) := by
  unfold PositionalIds; infer_instance

instance (n : NFA) : Decidable (WellFormed n) := by
  unfold WellFormed; infer_instance

/-- The number automaton of `buildNumberNFA()`. -/
def buildNumberNFA : NFA :=
  let digit := buildSymbolNFA '0'
  let dot := buildSymbolNFA '.'
  let decimal := buildConcatNFA dot digit
  buildUnionNFA digit decimal

/-- `buildIdentifierNFA()`. -/
def buildIdentifierNFA : NFA :=
  let first := buildSymbolNFA 'a'
  let loop := buildClosureNFA first
  loop

/-- The automaton chosen at the head of `DiagramBuilder::buildDynamicDiagram` for the key
`tokenType`: the `if / else if / else` chain on the key. -/
def selectNFA (tokenType : QString) : NFA :=
  if tokenType = "Identifier".toList then buildIdentifierNFA
  else if tokenType = "Number".toList then buildNumberNFA
  else if tokenType = "String".toList then buildStringLiteralNFA "Print".toList
  else buildSymbolNFA 'a'

/-- The start id, the accept id and both endpoints of every transition are ids of states
of the fragment. -/
def ReferentiallyClosed (n : NFA) : Prop :=
  IsStateId n n.startState ∧ IsStateId n n.acceptState ∧
    ∀ t ∈ n.transitions, IsStateId n t.from_ ∧ IsStateId n t.to_

/-- The state stored at position `i` of the list has id `k + i`. -/
def PositionalFrom (k : Int) (l : List NFAState) : Prop :=
  ∀ (i : Nat) (s : NFAState), l[i]? = some s → s.id = k + i

/-- A fragment whose ids are the contiguous range `{0, 1}` but stored out of position:
the state of id 1 comes first. -/
def swappedPair : NFA :=
  { states := [⟨1, false⟩, ⟨0, true⟩]
    transitions := [⟨1, QString.ofChar 'a', 0⟩]
    startState := 1
    acceptState := 0 }

/-- The transition list that `buildNumberNFA()` produces, written out. -/
def numberEdges : List NFATransition :=
  [⟨0, epsilon, 4⟩, ⟨0, epsilon, 4⟩, ⟨5, epsilon, 1⟩, ⟨7, epsilon, 1⟩,
   ⟨4, QString.ofChar '0', 5⟩, ⟨4, QString.ofChar '.', 5⟩, ⟨5, epsilon, 6⟩,
   ⟨6, QString.ofChar '0', 7⟩]

/-- The states appended by the import loop when `nextId` is `k` on entry: fresh ids
`k, k+1, ...` in list order, each carrying the flag of the state it copies. -/
def importedStates : Int → List NFAState → List NFAState
  | _, [] => []
  | k, s :: ss => ⟨k, s.isAccept⟩ :: importedStates (k + 1) ss

/-- The two epsilon edges the closure adds for an accept-flagged state. -/
def closureLoopEdges (idMap : QMap) (start newAccept : Int) (s : NFAState) :
    List NFATransition :=
  [⟨idMap.get s.id, epsilon, idMap.get start⟩, ⟨idMap.get s.id, epsilon, newAccept⟩]

/-- Whether the accept-state loop of the closure demotes the result state `r`: some
accept-flagged input state is mapped to the id of `r`. -/
def demotedBy (idMap : QMap) (ss : List NFAState) (r : NFAState) : Bool :=
  ss.any (fun s => s.isAccept && decide (r.id = idMap.get s.id))

/-- The list of state ids of a fragment, in list order. -/
def stateIds (n : NFA) : List Int := n.states.map (fun s => s.id)

/-- The state ids are pairwise distinct and form the contiguous range `[0, N)`. -/
def ContiguousIds (n : NFA) : Prop :=
  (stateIds n).Nodup ∧ ∀ x : Int, x ∈ stateIds n ↔ 0 ≤ x ∧ x < n.states.length

/-- The transitions of a star-shaped fragment over the transition list `ts` of a
fragment with start `s` and accept `a`: entry and skip edges out of `0`, loop and exit
edges out of `a + 2`, and a copy of `ts` shifted by 2. -/
def IsStarEdge (ts : List NFATransition) (s a : Int) (t : NFATransition) : Prop :=
  t = ⟨0, epsilon, s + 2⟩ ∨ t = ⟨0, epsilon, 1⟩ ∨ t = ⟨a + 2, epsilon, s + 2⟩ ∨
    t = ⟨a + 2, epsilon, 1⟩ ∨ ∃ t' ∈ ts, t = ⟨t'.from_ + 2, t'.symbol, t'.to_ + 2⟩

/-- The chain of consuming edges `k → k+1 → ...`, one per character of the literal. -/
def chainEdges : Int → List Char → List NFATransition
  | _, [] => []
  | k, c :: cs => ⟨k, QString.ofChar c, k + 1⟩ :: chainEdges (k + 1) cs

/-- The non-accepting states `k, k+1, ...` allocated for the characters of the literal. -/
def chainStates : Int → List Char → List NFAState
  | _, [] => []
  | k, _ :: cs => ⟨k, false⟩ :: chainStates (k + 1) cs

/-- A run of the automaton: `Reach ts p w q` when `q` can be reached from `p` reading
exactly `w`, where `"ε"`-labelled transitions consume nothing and every other followed
transition is labelled with the one character it consumes. -/
inductive Reach (ts : List NFATransition) : Int → List Char → Int → Prop
  | refl (p : Int) : Reach ts p [] p
  | eps {p q r : Int} {w : List Char} :
      (⟨p, epsilon, q⟩ : NFATransition) ∈ ts → Reach ts q w r → Reach ts p w r
  | sym {p q r : Int} {c : Char} {w : List Char} :
      QString.ofChar c ≠ epsilon → (⟨p, QString.ofChar c, q⟩ : NFATransition) ∈ ts →
      Reach ts q w r → Reach ts p (c :: w) r

/-- The language of a fragment as a run from `startState` to the declared `acceptState`. -/
def Accepts (n : NFA) (w : List Char) : Prop :=
  Reach n.transitions n.startState w n.acceptState

/-- A set of states closed under `"ε"`-labelled transitions. -/
def EpsClosed (ts : List NFATransition) (S : List Int) : Prop :=
  ∀ t ∈ ts, t.symbol = epsilon → t.from_ ∈ S → t.to_ ∈ S

/-! ## Runs: composition and monotonicity -/

theorem Reach.trans {ts : List NFATransition} {p q r : Int} {u v : List Char}
    (h1 : Reach ts p u q) (h2 : Reach ts q v r) : Reach ts p (u ++ v) r := by
  induction h1 with
  | refl _ => simpa using h2
  | eps hmem _ ih => exact Reach.eps hmem (ih h2)
  | sym hne hmem _ ih => exact Reach.sym hne hmem (ih h2)

theorem Reach.mono {ts ts' : List NFATransition} (hsub : ∀ t ∈ ts, t ∈ ts') {p r : Int}
    {w : List Char} (h : Reach ts p w r) : Reach ts' p w r := by
  induction h with
  | refl _ => exact Reach.refl _
  | eps hmem _ ih => exact Reach.eps (hsub _ hmem) ih
  | sym hne hmem _ ih => exact Reach.sym hne (hsub _ hmem) ih

/-- Runs are preserved by renaming both endpoints of every transition. -/
theorem Reach.map {ts : List NFATransition} (f : Int → Int) {p r : Int} {w : List Char}
    (h : Reach ts p w r) :
    Reach (ts.map (fun t => (⟨f t.from_, t.symbol, f t.to_⟩ : NFATransition))) (f p) w (f r) := by
  induction h with
  | refl _ => exact Reach.refl _
  | eps hmem _ ih =>
    exact Reach.eps (List.mem_map.2 ⟨_, hmem, rfl⟩) ih
  | sym hne hmem _ ih =>
    exact Reach.sym hne (List.mem_map.2 ⟨_, hmem, rfl⟩) ih

/-! ## The simulator computes exactly the runs -/

theorem mem_epsStep {ts : List NFATransition} {S : List Int} {q : Int} :
    q ∈ epsStep ts S ↔ q ∈ S ∨ ∃ p ∈ S, (⟨p, epsilon, q⟩ : NFATransition) ∈ ts := by
  unfold epsStep
  simp only [List.mem_append, List.mem_map, List.mem_filter, Bool.and_eq_true,
    decide_eq_true_eq]
  constructor
  · rintro (h | ⟨t, ⟨ht, hs, hf⟩, rfl⟩)
    · exact Or.inl h
    · refine Or.inr ⟨t.from_, hf, ?_⟩
      rw [← hs]; exact ht
  · rintro (h | ⟨p, hp, ht⟩)
    · exact Or.inl h
    · exact Or.inr ⟨_, ⟨ht, rfl, hp⟩, rfl⟩

theorem subset_epsStep_iterate (ts : List NFATransition) (k : Nat) (S : List Int) :
    ∀ q ∈ S, q ∈ (epsStep ts)^[k] S := by
  induction k generalizing S with
  | zero => intro q hq; simpa using hq
  | succ k ih =>
    intro q hq
    rw [Function.iterate_succ_apply]
    exact ih _ q (mem_epsStep.2 (Or.inl hq))

theorem epsStep_iterate_sound (ts : List NFATransition) (k : Nat) (S : List Int) (q : Int)
    (hq : q ∈ (epsStep ts)^[k] S) : ∃ p ∈ S, Reach ts p [] q := by
  induction k generalizing S with
  | zero => exact ⟨q, by simpa using hq, Reach.refl _⟩
  | succ k ih =>
    rw [Function.iterate_succ_apply] at hq
    obtain ⟨p, hp, hr⟩ := ih _ hq
    rcases mem_epsStep.1 hp with h | ⟨p0, hp0, ht⟩
    · exact ⟨p, h, hr⟩
    · exact ⟨p0, hp0, Reach.eps ht hr⟩

theorem epsClosed_mem_epsStep {ts : List NFATransition} {S : List Int} (h : EpsClosed ts S) :
    ∀ q, q ∈ epsStep ts S ↔ q ∈ S := by
  intro q
  rw [mem_epsStep]
  constructor
  · rintro (hq | ⟨p, hp, ht⟩)
    · exact hq
    · exact h _ ht rfl hp
  · exact Or.inl

theorem epsClosed_of_same {ts : List NFATransition} {S S' : List Int} (h : EpsClosed ts S)
    (hs : ∀ q, q ∈ S' ↔ q ∈ S) : EpsClosed ts S' := by
  intro t ht he hf
  exact (hs _).2 (h t ht he ((hs _).1 hf))

theorem epsClosed_iterate_of_closed {ts : List NFATransition} (k : Nat) {S : List Int}
    (h : EpsClosed ts S) : EpsClosed ts ((epsStep ts)^[k] S) := by
  induction k generalizing S with
  | zero => simpa using h
  | succ k ih =>
    rw [Function.iterate_succ_apply]
    exact ih (epsClosed_of_same h (epsClosed_mem_epsStep h))

/-- Iterating `epsStep` as many times as there are still-missing targets closes the set. -/
theorem epsClosed_iterate (ts : List NFATransition) (k : Nat) (S : List Int)
    (hk : ((ts.map (fun t => t.to_)).toFinset \ S.toFinset).card ≤ k) :
    EpsClosed ts ((epsStep ts)^[k] S) := by
  induction k generalizing S with
  | zero =>
    have h0 : (ts.map (fun t => t.to_)).toFinset \ S.toFinset = ∅ :=
      Finset.card_eq_zero.1 (Nat.le_zero.1 hk)
    intro t ht _ _
    have hsub := Finset.sdiff_eq_empty_iff_subset.1 h0
    have : t.to_ ∈ (ts.map (fun t => t.to_)).toFinset :=
      List.mem_toFinset.2 (List.mem_map.2 ⟨t, ht, rfl⟩)
    simpa using hsub this
  | succ k ih =>
    by_cases hc : EpsClosed ts S
    · exact epsClosed_iterate_of_closed (k + 1) hc
    · rw [Function.iterate_succ_apply]
      apply ih
      unfold EpsClosed at hc
      push_neg at hc
      obtain ⟨t, ht, he, hf, hnot⟩ := hc
      have hlt : ((ts.map (fun t => t.to_)).toFinset \ (epsStep ts S).toFinset).card
          < ((ts.map (fun t => t.to_)).toFinset \ S.toFinset).card := by
        apply Finset.card_lt_card
        rw [Finset.ssubset_iff_of_subset]
        · refine ⟨t.to_, ?_, ?_⟩
          · simp only [Finset.mem_sdiff, List.mem_toFinset, List.mem_map]
            exact ⟨⟨t, ht, rfl⟩, hnot⟩
          · simp only [Finset.mem_sdiff, List.mem_toFinset, not_and, not_not]
            intro _
            refine mem_epsStep.2 (Or.inr ⟨t.from_, hf, ?_⟩)
            rw [← he]; exact ht
        · intro x hx
          simp only [Finset.mem_sdiff, List.mem_toFinset] at hx ⊢
          exact ⟨hx.1, fun hxs => hx.2 (mem_epsStep.2 (Or.inl hxs))⟩
      omega

theorem epsClosure_closed (ts : List NFATransition) (S : List Int) :
    EpsClosed ts (epsClosure ts S) := by
  apply epsClosed_iterate
  calc ((ts.map (fun t => t.to_)).toFinset \ S.toFinset).card
      ≤ (ts.map (fun t => t.to_)).toFinset.card := Finset.card_le_card Finset.sdiff_subset
    _ ≤ (ts.map (fun t => t.to_)).length := List.toFinset_card_le _
    _ = ts.length := by simp

theorem epsClosed_reach {ts : List NFATransition} {S : List Int} (h : EpsClosed ts S)
    {p q : Int} {w : List Char} (hr : Reach ts p w q) (hw : w = []) (hp : p ∈ S) : q ∈ S := by
  induction hr with
  | refl _ => exact hp
  | eps hmem _ ih => exact ih hw (h _ hmem rfl hp)
  | sym _ _ _ _ => cases hw

theorem mem_epsClosure {ts : List NFATransition} {S : List Int} {q : Int} :
    q ∈ epsClosure ts S ↔ ∃ p ∈ S, Reach ts p [] q := by
  constructor
  · exact epsStep_iterate_sound ts _ S q
  · rintro ⟨p, hp, hr⟩
    exact epsClosed_reach (epsClosure_closed ts S) hr rfl (subset_epsStep_iterate ts _ S p hp)

theorem mem_move {ts : List NFATransition} {S : List Int} {c : Char} {q : Int} :
    q ∈ move ts S c ↔
      ∃ p ∈ S, QString.ofChar c ≠ epsilon ∧ (⟨p, QString.ofChar c, q⟩ : NFATransition) ∈ ts := by
  unfold move
  simp only [List.mem_map, List.mem_filter, Bool.and_eq_true, decide_eq_true_eq]
  constructor
  · rintro ⟨t, ⟨ht, ⟨hne, hs⟩, hf⟩, rfl⟩
    refine ⟨t.from_, hf, hs ▸ hne, ?_⟩
    rw [← hs]; exact ht
  · rintro ⟨p, hp, hne, ht⟩
    exact ⟨_, ⟨ht, ⟨hne, rfl⟩, hp⟩, rfl⟩

/-- A run that consumes `c :: w` splits at the transition that consumes `c`. -/
theorem Reach.cons_inv {ts : List NFATransition} {p r : Int} {c : Char} {w x : List Char}
    (h : Reach ts p x r) (hx : x = c :: w) :
    ∃ p' q, Reach ts p [] p' ∧ QString.ofChar c ≠ epsilon ∧
      (⟨p', QString.ofChar c, q⟩ : NFATransition) ∈ ts ∧ Reach ts q w r := by
  induction h with
  | refl _ => cases hx
  | eps hmem _ ih =>
    obtain ⟨p', q, h1, h2, h3, h4⟩ := ih hx
    exact ⟨p', q, Reach.eps hmem h1, h2, h3, h4⟩
  | sym hne hmem hr _ =>
    cases hx
    exact ⟨_, _, Reach.refl _, hne, hmem, hr⟩

theorem mem_simulate {ts : List NFATransition} {S : List Int} {w : List Char} {r : Int} :
    r ∈ simulate ts (epsClosure ts S) w ↔ ∃ p ∈ S, Reach ts p w r := by
  induction w generalizing S with
  | nil => simp only [simulate]; exact mem_epsClosure
  | cons c w ih =>
    simp only [simulate]
    rw [ih]
    constructor
    · rintro ⟨q, hq, hr⟩
      obtain ⟨p', hp', hne, ht⟩ := mem_move.1 hq
      obtain ⟨p, hp, hpp⟩ := mem_epsClosure.1 hp'
      exact ⟨p, hp, by simpa using hpp.trans (Reach.sym hne ht hr)⟩
    · rintro ⟨p, hp, hr⟩
      obtain ⟨p', q, h1, hne, ht, h4⟩ := hr.cons_inv rfl
      exact ⟨q, mem_move.2 ⟨p', mem_epsClosure.2 ⟨p, hp, h1⟩, hne, ht⟩, h4⟩

/-- The simulator accepts exactly the words that label a run from `startState` to
`acceptState`. -/
theorem accepts_iff (n : NFA) (w : List Char) : accepts n w = true ↔ Accepts n w := by
  unfold accepts Accepts
  rw [decide_eq_true_eq, mem_simulate]
  simp

/-! ## Closed forms of the import loop -/

theorem addStates_cons (s : NFAState) (ss : List NFAState) (st : ImportState) :
    addStates (s :: ss) st = addStates ss (importState st s) := rfl

theorem addStates_states (ss : List NFAState) (st : ImportState) :
    (addStates ss st).states = st.states ++ importedStates st.nextId ss := by
  induction ss generalizing st with
  | nil => simp [addStates, importedStates]
  | cons s ss ih =>
    rw [addStates_cons, ih]
    simp [importState, importedStates, QMap.get, QMap.set]

theorem addStates_nextId (ss : List NFAState) (st : ImportState) :
    (addStates ss st).nextId = st.nextId + ss.length := by
  induction ss generalizing st with
  | nil => simp [addStates]
  | cons s ss ih =>
    rw [addStates_cons, ih]
    simp [importState]
    omega

theorem importedStates_length (k : Int) (ss : List NFAState) :
    (importedStates k ss).length = ss.length := by
  induction ss generalizing k with
  | nil => rfl
  | cons s ss ih => simp [importedStates, ih]

theorem importedStates_getElem? (k : Int) (ss : List NFAState) (i : Nat) :
    (importedStates k ss)[i]? = (ss[i]?).map (fun s => ⟨k + i, s.isAccept⟩) := by
  induction ss generalizing k i with
  | nil => simp [importedStates]
  | cons s ss ih =>
    cases i with
    | zero => simp [importedStates]
    | succ i =>
      simp only [importedStates, List.getElem?_cons_succ, ih]
      congr 1
      funext s
      congr 1
      push_cast
      omega

/-- A key that is no state id keeps the value it had before the import loop. -/
theorem addStates_idMap_of_not_mem (ss : List NFAState) (st : ImportState) (k : Int)
    (hk : k ∉ ss.map (fun s => s.id)) : (addStates ss st).idMap k = st.idMap k := by
  induction ss generalizing st with
  | nil => rfl
  | cons s ss ih =>
    simp only [List.map_cons, List.mem_cons, not_or] at hk
    rw [addStates_cons, ih _ hk.2]
    simp [importState, QMap.set, hk.1]

/-- With pairwise distinct ids the import loop maps the id at position `i` to the `i`-th
fresh id. -/
theorem addStates_idMap_getElem (ss : List NFAState) (st : ImportState)
    (hnd : (ss.map (fun s => s.id)).Nodup) (i : Nat) (hi : i < ss.length) :
    (addStates ss st).idMap (ss[i].id) = st.nextId + i := by
  induction ss generalizing st i with
  | nil => simp at hi
  | cons s ss ih =>
    simp only [List.map_cons, List.nodup_cons] at hnd
    rw [addStates_cons]
    cases i with
    | zero =>
      simp only [List.getElem_cons_zero]
      rw [addStates_idMap_of_not_mem _ _ _ hnd.1]
      simp [importState, QMap.set]
    | succ i =>
      simp only [List.getElem_cons_succ]
      rw [ih _ hnd.2 i (by simpa using hi)]
      simp [importState]
      omega

/-- Every value of the id map after the import loop is an old value or a fresh id. -/
theorem addStates_idMap_range (ss : List NFAState) (st : ImportState) (k : Int) :
    (addStates ss st).idMap k = st.idMap k ∨ st.nextId ≤ (addStates ss st).idMap k := by
  induction ss generalizing st with
  | nil => exact Or.inl rfl
  | cons s ss ih =>
    rw [addStates_cons]
    rcases ih (importState st s) with h | h
    · rw [h]
      by_cases hk : k = s.id
      · right; simp [importState, QMap.set, hk]
      · left; simp [importState, QMap.set, hk]
    · right
      have : (importState st s).nextId = st.nextId + 1 := rfl
      omega

/-! ## Positional ids -/

theorem positional_id_getElem {ss : List NFAState}
    (h : ss.map (fun s => s.id) = (List.range ss.length).map (fun (i : Nat) => (i : Int)))
    (i : Nat) (hi : i < ss.length) : ss[i].id = i := by
  have h1 : (ss.map (fun s => s.id))[i]? = ((List.range ss.length).map (fun (i : Nat) => (i : Int)))[i]? := by
    rw [h]
  simpa [hi] using h1

theorem positional_nodup {ss : List NFAState}
    (h : ss.map (fun s => s.id) = (List.range ss.length).map (fun (i : Nat) => (i : Int))) :
    (ss.map (fun s => s.id)).Nodup := by
  rw [h]
  exact (List.nodup_range _).map (fun a b hab => by simpa using hab)

theorem positional_mem_iff {ss : List NFAState}
    (h : ss.map (fun s => s.id) = (List.range ss.length).map (fun (i : Nat) => (i : Int))) (x : Int) :
    x ∈ ss.map (fun s => s.id) ↔ 0 ≤ x ∧ x < ss.length := by
  rw [h]
  simp only [List.mem_map, List.mem_range]
  constructor
  · rintro ⟨i, hi, rfl⟩
    omega
  · rintro ⟨h0, h1⟩
    exact ⟨x.toNat, by omega, by omega⟩

/-- Under positional ids the import loop is a shift of every state id by `nextId`. -/
theorem addStates_idMap_positional (ss : List NFAState) (st : ImportState)
    (h : ss.map (fun s => s.id) = (List.range ss.length).map (fun (i : Nat) => (i : Int)))
    (x : Int) (hx : x ∈ ss.map (fun s => s.id)) :
    (addStates ss st).idMap x = st.nextId + x := by
  obtain ⟨h0, h1⟩ := (positional_mem_iff h x).1 hx
  have hi : x.toNat < ss.length := by omega
  have := addStates_idMap_getElem ss st (positional_nodup h) x.toNat hi
  rw [positional_id_getElem h x.toNat hi] at this
  rw [show x = ((x.toNat : Nat) : Int) by omega]
  exact this

theorem importedStates_positional (k : Int) (ss : List NFAState)
    (h : ss.map (fun s => s.id) = (List.range ss.length).map (fun (i : Nat) => (i : Int))) :
    importedStates k ss = ss.map (fun s => ⟨s.id + k, s.isAccept⟩) := by
  apply List.ext_getElem?
  intro i
  rw [importedStates_getElem?, List.getElem?_map]
  by_cases hi : i < ss.length
  · simp only [List.getElem?_eq_getElem hi, Option.map_some']
    rw [positional_id_getElem h i hi, add_comm]
  · simp [List.getElem?_eq_none (not_lt.1 hi)]

/-! ## Closed forms of the closure's accept-state loop -/

theorem closureLoop_fst (m : QMap) (start acc : Int) (ss : List NFAState)
    (a : List NFATransition × List NFAState) :
    (ss.foldl (closureAcceptStep m start acc) a).1
      = a.1 ++ (ss.filter (fun s => s.isAccept)).flatMap (closureLoopEdges m start acc) := by
  induction ss generalizing a with
  | nil => simp
  | cons s ss ih =>
    rw [List.foldl_cons, ih]
    cases hs : s.isAccept <;> simp [closureAcceptStep, closureLoopEdges, hs]

theorem demote_map_id (target : Int) (rs : List NFAState) :
    (demote target rs).map (fun s => s.id) = rs.map (fun s => s.id) := by
  unfold demote
  rw [List.map_map]
  apply List.map_congr_left
  intro r _
  simp only [Function.comp]
  split <;> rfl

theorem closureLoop_snd (m : QMap) (start acc : Int) (ss : List NFAState)
    (a : List NFATransition × List NFAState) :
    (ss.foldl (closureAcceptStep m start acc) a).2
      = a.2.map (fun r => if demotedBy m ss r then { r with isAccept := false } else r) := by
  induction ss generalizing a with
  | nil => simp [demotedBy]
  | cons s ss ih =>
    rw [List.foldl_cons, ih]
    cases hs : s.isAccept
    · simp [closureAcceptStep, demotedBy, hs]
    · simp only [closureAcceptStep, hs, if_true, demote, List.map_map]
      apply List.map_congr_left
      intro r _
      simp only [Function.comp, demotedBy, List.any_cons, hs, Bool.true_and]
      by_cases hr : r.id = m.get s.id
      · simp [hr]
      · simp [hr]

theorem closure_transitions (n : NFA) :
    (buildClosureNFA n).transitions
      = [⟨0, epsilon, (closureIdMap n).get n.startState⟩, ⟨0, epsilon, 1⟩]
        ++ (n.states.filter (fun s => s.isAccept)).flatMap
            (closureLoopEdges (closureIdMap n) n.startState 1)
        ++ n.transitions.map (remap (closureIdMap n)) := by
  simp only [buildClosureNFA, closureLoop_fst, closureIdMap]

theorem closure_states (n : NFA) :
    (buildClosureNFA n).states
      = (([⟨0, false⟩, ⟨1, true⟩] : List NFAState) ++ importedStates 2 n.states).map
          (fun r => if demotedBy (closureIdMap n) n.states r
            then { r with isAccept := false } else r) := by
  simp only [buildClosureNFA, closureLoop_snd, closureIdMap, addStates_states]
  rfl

/-- No key is mapped to the fresh accept id `1` by the closure's id map. -/
theorem closureIdMap_ne_one (n : NFA) (k : Int) : (closureIdMap n).get k ≠ 1 := by
  have h := addStates_idMap_range n.states freshPair k
  simp only [freshPair, QMap.empty] at h
  unfold closureIdMap QMap.get
  simp only [freshPair, QMap.empty]
  omega

theorem mem_importedStates {k : Int} {ss : List NFAState} {r : NFAState}
    (hr : r ∈ importedStates k ss) :
    ∃ i, ∃ hi : i < ss.length, r = ⟨k + i, ss[i].isAccept⟩ := by
  obtain ⟨i, hi⟩ := List.mem_iff_getElem?.1 hr
  rw [importedStates_getElem?] at hi
  by_cases hlt : i < ss.length
  · refine ⟨i, hlt, ?_⟩
    simpa [List.getElem?_eq_getElem hlt] using hi.symm
  · simp [List.getElem?_eq_none (not_lt.1 hlt)] at hi

/-- With pairwise distinct input ids, the closure's state list is the two fresh states
followed by the imported states, every one of them non-accepting. -/
theorem closure_states_of_nodup (n : NFA) (hnd : (n.states.map (fun s => s.id)).Nodup) :
    (buildClosureNFA n).states
      = ⟨0, false⟩ :: ⟨1, true⟩ ::
          (importedStates 2 n.states).map (fun r => ⟨r.id, false⟩) := by
  rw [closure_states, List.map_append]
  have h01 : ([⟨0, false⟩, ⟨1, true⟩] : List NFAState).map
      (fun r => if demotedBy (closureIdMap n) n.states r
        then { r with isAccept := false } else r) = [⟨0, false⟩, ⟨1, true⟩] := by
    have h1 : demotedBy (closureIdMap n) n.states ⟨1, true⟩ = false := by
      unfold demotedBy
      rw [List.any_eq_false]
      intro s _
      have := closureIdMap_ne_one n s.id
      simp [Ne.symm this]
    simp only [List.map_cons, List.map_nil, h1]
    cases demotedBy (closureIdMap n) n.states ⟨0, false⟩ <;> simp
  rw [h01]
  simp only [List.cons_append, List.nil_append, List.cons.injEq, true_and]
  apply List.map_congr_left
  intro r hr
  obtain ⟨i, hi, rfl⟩ := mem_importedStates hr
  cases hf : n.states[i].isAccept
  · cases demotedBy (closureIdMap n) n.states ⟨2 + i, false⟩ <;> simp
  · have hd : demotedBy (closureIdMap n) n.states ⟨2 + i, true⟩ = true := by
      unfold demotedBy
      rw [List.any_eq_true]
      refine ⟨n.states[i], List.getElem_mem hi, ?_⟩
      have := addStates_idMap_getElem n.states freshPair hnd i hi
      simp only [hf, Bool.true_and, decide_eq_true_eq, closureIdMap, QMap.get, this]
      rfl
    simp [hd]

theorem importedStates_unflag_filter (k : Int) (ss : List NFAState) :
    ((importedStates k ss).map (fun r => (⟨r.id, false⟩ : NFAState))).filter
      (fun s => s.isAccept) = [] := by
  rw [List.filter_eq_nil_iff]
  intro a ha
  obtain ⟨r, _, rfl⟩ := List.mem_map.1 ha
  simp

/-! ## Claims about the shape of the fragments -/

/-- C6: `buildSymbolNFA(c)` is exactly the two-state fragment with states
`[(0, non-accepting), (1, accepting)]`, the single transition `(0, c, 1)`,
`startState = 0` and `acceptState = 1`; it has 2 states and 1 transition, labelled `c`,
and its start and accept ids differ. -/
theorem buildSymbolNFA_shape (c : Char) :
    buildSymbolNFA c =
        { states := [⟨0, false⟩, ⟨1, true⟩]
          transitions := [⟨0, QString.ofChar c, 1⟩]
          startState := 0
          acceptState := 1 } ∧
      (buildSymbolNFA c).states.length = 2 ∧
      (buildSymbolNFA c).transitions.length = 1 ∧
      (∀ t ∈ (buildSymbolNFA c).transitions, t.symbol = QString.ofChar c) ∧
      (buildSymbolNFA c).startState ≠ (buildSymbolNFA c).acceptState := by
  refine ⟨rfl, rfl, rfl, ?_, ?_⟩
  swap
  · simp [buildSymbolNFA, getNextId, freshCounter]
  intro t ht
  simp only [buildSymbolNFA, List.mem_singleton] at ht
  rw [ht]

/-- C7: `buildConcatNFA(n1, n2)` has exactly `|n1.states| + |n2.states|` states, and when
the state ids of each input are pairwise distinct and form the contiguous range
`[0, number of its states)`, no two states of the result share an id. -/
theorem buildConcatNFA_states_count_nodup (n1 n2 : NFA) :
    (buildConcatNFA n1 n2).states.length = n1.states.length + n2.states.length ∧
      (ContiguousIds n1 → ContiguousIds n2 → (stateIds (buildConcatNFA n1 n2)).Nodup) := by
  constructor
  · simp [buildConcatNFA, demote]
  · intro h1 h2
    unfold stateIds buildConcatNFA
    simp only [demote_map_id, List.map_append, List.map_map]
    rw [List.nodup_append]
    refine ⟨h1.1, ?_, ?_⟩
    · have h := h2.1
      unfold stateIds at h
      have := @List.Nodup.map _ _ _ (fun x : Int => x + (n1.states.length : Int))
        (fun a b hab => by simpa using hab) h
      simpa [List.map_map, Function.comp] using this
    · intro x hx1 hx2
      have hlt := ((h1.2 x).1 hx1).2
      simp only [List.mem_map, Function.comp] at hx2
      obtain ⟨s, hs, rfl⟩ := hx2
      have hge := ((h2.2 s.id).1 (List.mem_map.2 ⟨s, hs, rfl⟩)).1
      omega

/-- C8: for every fragment `n`, with no precondition, `buildClosureNFA(n)` has
`startState = 0`, `acceptState = 1` and the transition `(0, "ε", 1)` as its second
transition; that edge is not the image of any transition of `n` under the id map, and
the closure accepts the empty string. -/
theorem buildClosureNFA_accepts_empty (n : NFA) :
    (buildClosureNFA n).startState = 0 ∧ (buildClosureNFA n).acceptState = 1 ∧
      (buildClosureNFA n).transitions[1]? = some ⟨0, epsilon, 1⟩ ∧
      (∀ t ∈ n.transitions, remap (closureIdMap n) t ≠ ⟨0, epsilon, 1⟩) ∧
      accepts (buildClosureNFA n) [] = true := by
  refine ⟨rfl, rfl, by rw [closure_transitions]; simp, ?_, ?_⟩
  · intro t _ h
    have := closureIdMap_ne_one n t.to_
    simp only [remap, NFATransition.mk.injEq] at h
    exact this h.2.2
  · rw [accepts_iff]
    refine Reach.eps ?_ (Reach.refl _)
    rw [closure_transitions]
    simp [buildClosureNFA]

/-- C9: for every fragment `n` whose state ids are pairwise distinct,
`buildClosureNFA(n)` has exactly one accept-flagged state, the state of id 1, which is
the declared `acceptState`; every state imported from `n` (the states from position 2
on) is non-accepting. -/
theorem buildClosureNFA_single_accept (n : NFA) (hnd : (stateIds n).Nodup) :
    (buildClosureNFA n).states.filter (fun s => s.isAccept) = [⟨1, true⟩] ∧
      (buildClosureNFA n).acceptState = 1 ∧
      (buildClosureNFA n).states.length = n.states.length + 2 ∧
      ∀ i : Nat, i < n.states.length →
        (buildClosureNFA n).states[i + 2]? = some ⟨(i : Int) + 2, false⟩ := by
  unfold stateIds at hnd
  rw [closure_states_of_nodup n hnd]
  refine ⟨?_, rfl, ?_, ?_⟩
  · simp only [List.filter_cons, Bool.false_eq_true, if_false, if_true]
    rw [importedStates_unflag_filter]
  · simp [importedStates_length]
  · intro i hi
    simp only [List.getElem?_cons_succ, List.getElem?_map, importedStates_getElem?,
      List.getElem?_eq_getElem hi, Option.map_some']
    simp [add_comm]

/-- A witness for C9: the closure of the one-symbol fragment for `a`. -/
theorem buildClosureNFA_single_accept_witness :
    (stateIds (buildSymbolNFA 'a')).Nodup ∧
      (buildClosureNFA (buildSymbolNFA 'a')).states.filter (fun s => s.isAccept)
        = [⟨1, true⟩] :=
  ⟨by decide, (buildClosureNFA_single_accept (buildSymbolNFA 'a') (by decide)).1⟩

/-- A witness for C7: concatenating the one-symbol fragments for `a` and `b`. -/
theorem buildConcatNFA_states_count_nodup_witness :
    ContiguousIds (buildSymbolNFA 'a') ∧ ContiguousIds (buildSymbolNFA 'b') ∧
      (stateIds (buildConcatNFA (buildSymbolNFA 'a') (buildSymbolNFA 'b'))).Nodup :=
  have hc : ∀ c : Char, ContiguousIds (buildSymbolNFA c) := fun c =>
    ⟨by simp [stateIds, buildSymbolNFA, getNextId, freshCounter], fun x => by
      simp only [stateIds, buildSymbolNFA, getNextId, freshCounter, List.map_cons,
        List.map_nil, List.mem_cons, List.length_cons, List.length_nil]
      simp
      omega⟩
  ⟨hc 'a', hc 'b', (buildConcatNFA_states_count_nodup _ _).2 (hc 'a') (hc 'b')⟩

/-! ## Well-formed fragments -/

theorem WellFormed.start_bounds {n : NFA} (h : WellFormed n) :
    0 ≤ n.startState ∧ n.startState < n.states.length :=
  (positional_mem_iff h.1 _).1 h.2.1

theorem WellFormed.accept_bounds {n : NFA} (h : WellFormed n) :
    0 ≤ n.acceptState ∧ n.acceptState < n.states.length :=
  (positional_mem_iff h.1 _).1 h.2.2.1

theorem WellFormed.from_bounds {n : NFA} (h : WellFormed n) {t : NFATransition}
    (ht : t ∈ n.transitions) : 0 ≤ t.from_ ∧ t.from_ < n.states.length :=
  (positional_mem_iff h.1 _).1 (h.2.2.2 t ht).1

theorem WellFormed.to_bounds {n : NFA} (h : WellFormed n) {t : NFATransition}
    (ht : t ∈ n.transitions) : 0 ≤ t.to_ ∧ t.to_ < n.states.length :=
  (positional_mem_iff h.1 _).1 (h.2.2.2 t ht).2

/-! ## The language of a concatenation -/

/-- The transition list of a concatenation with offset `N`. -/
theorem concat_transitions (n1 n2 : NFA) :
    (buildConcatNFA n1 n2).transitions
      = n1.transitions ++ [⟨n1.acceptState, epsilon, n2.startState + n1.states.length⟩]
        ++ n2.transitions.map
            (fun t => ⟨t.from_ + n1.states.length, t.symbol, t.to_ + n1.states.length⟩) := rfl

/-- A run of the concatenation that starts in the imported half stays there, and is a run
of the second operand. -/
theorem concat_reach_high {ts1 ts2 : List NFATransition} {N a1 s2 : Int}
    (h1 : ∀ t ∈ ts1, t.from_ < N) (ha : a1 < N) (h2 : ∀ t ∈ ts2, 0 ≤ t.to_)
    {p r : Int} {w : List Char}
    (h : Reach (ts1 ++ [⟨a1, epsilon, s2 + N⟩]
      ++ ts2.map (fun t => ⟨t.from_ + N, t.symbol, t.to_ + N⟩)) p w r)
    (hp : N ≤ p) : Reach ts2 (p - N) w (r - N) := by
  induction h with
  | refl _ => exact Reach.refl _
  | @eps p q r w hmem _ ih =>
    simp only [List.mem_append, List.mem_singleton, List.mem_map] at hmem
    rcases hmem with (hm | hm) | ⟨t, ht, hm⟩
    · have := h1 _ hm
      simp only at this
      omega
    · simp only [NFATransition.mk.injEq] at hm
      omega
    · simp only [NFATransition.mk.injEq] at hm
      obtain ⟨hf, hs, hto⟩ := hm
      have h0 := h2 t ht
      have ht' : (⟨p - N, epsilon, q - N⟩ : NFATransition) ∈ ts2 := by
        have : (⟨p - N, epsilon, q - N⟩ : NFATransition) = t := by
          cases t
          simp only [NFATransition.mk.injEq] at hf hs hto ⊢
          exact ⟨by omega, hs.symm, by omega⟩
        rw [this]; exact ht
      exact Reach.eps ht' (ih (by omega))
  | @sym p q r c w hne hmem _ ih =>
    simp only [List.mem_append, List.mem_singleton, List.mem_map] at hmem
    rcases hmem with (hm | hm) | ⟨t, ht, hm⟩
    · have := h1 _ hm
      simp only at this
      omega
    · simp only [NFATransition.mk.injEq] at hm
      omega
    · simp only [NFATransition.mk.injEq] at hm
      obtain ⟨hf, hs, hto⟩ := hm
      have h0 := h2 t ht
      have ht' : (⟨p - N, QString.ofChar c, q - N⟩ : NFATransition) ∈ ts2 := by
        have : (⟨p - N, QString.ofChar c, q - N⟩ : NFATransition) = t := by
          cases t
          simp only [NFATransition.mk.injEq] at hf hs hto ⊢
          exact ⟨by omega, hs.symm, by omega⟩
        rw [this]; exact ht
      exact Reach.sym hne ht' (ih (by omega))

/-- A run of the concatenation from the first half into the imported half crosses the
bridge edge exactly once: it is a run of the first operand to its accept state followed
by a run of the second operand from its start state. -/
theorem concat_reach_low {ts1 ts2 : List NFATransition} {N a1 s2 : Int}
    (h1 : ∀ t ∈ ts1, t.from_ < N ∧ t.to_ < N) (ha : a1 < N) (hs2 : 0 ≤ s2)
    (h2 : ∀ t ∈ ts2, 0 ≤ t.from_ ∧ 0 ≤ t.to_)
    {p r : Int} {w : List Char}
    (h : Reach (ts1 ++ [⟨a1, epsilon, s2 + N⟩]
      ++ ts2.map (fun t => ⟨t.from_ + N, t.symbol, t.to_ + N⟩)) p w r)
    (hp : p < N) (hr : N ≤ r) :
    ∃ u v, w = u ++ v ∧ Reach ts1 p u a1 ∧ Reach ts2 s2 v (r - N) := by
  induction h with
  | refl _ => omega
  | @eps p q r w hmem hrest ih =>
    have hmem' := hmem
    simp only [List.mem_append, List.mem_singleton, List.mem_map] at hmem'
    rcases hmem' with (hm | hm) | ⟨t, ht, hm⟩
    · have hb := (h1 _ hm).2
      simp only at hb
      obtain ⟨u, v, rfl, hu, hv⟩ := ih hb hr
      exact ⟨u, v, rfl, Reach.eps hm hu, hv⟩
    · simp only [NFATransition.mk.injEq] at hm
      obtain ⟨rfl, -, rfl⟩ := hm
      have hv := concat_reach_high (fun t ht => (h1 t ht).1) ha (fun t ht => (h2 t ht).2)
        hrest (by omega)
      refine ⟨[], w, rfl, Reach.refl _, ?_⟩
      simpa using hv
    · simp only [NFATransition.mk.injEq] at hm
      have := (h2 t ht).1
      omega
  | @sym p q r c w hne hmem hrest ih =>
    have hmem' := hmem
    simp only [List.mem_append, List.mem_singleton, List.mem_map] at hmem'
    rcases hmem' with (hm | hm) | ⟨t, ht, hm⟩
    · have hb := (h1 _ hm).2
      simp only at hb
      obtain ⟨u, v, rfl, hu, hv⟩ := ih hb hr
      exact ⟨c :: u, v, rfl, Reach.sym hne hm hu, hv⟩
    · simp only [NFATransition.mk.injEq] at hm
      exact absurd hm.2.1 hne
    · simp only [NFATransition.mk.injEq] at hm
      have := (h2 t ht).1
      omega

/-- C2: for well-formed fragments `n1` and `n2` and every input `w`,
`buildConcatNFA(n1, n2)` accepts `w` if and only if `w = u ++ v` for some `u` accepted by
`n1` and some `v` accepted by `n2`. -/
theorem buildConcatNFA_language (n1 n2 : NFA) (h1 : WellFormed n1) (h2 : WellFormed n2)
    (w : List Char) :
    accepts (buildConcatNFA n1 n2) w = true ↔
      ∃ u v, w = u ++ v ∧ accepts n1 u = true ∧ accepts n2 v = true := by
  simp only [accepts_iff, Accepts, concat_transitions]
  constructor
  · intro h
    have hlow := concat_reach_low
      (fun t ht => ⟨(h1.from_bounds ht).2, (h1.to_bounds ht).2⟩) h1.accept_bounds.2
      h2.start_bounds.1 (fun t ht => ⟨(h2.from_bounds ht).1, (h2.to_bounds ht).1⟩) h
      (by simpa [buildConcatNFA] using h1.start_bounds.2)
      (by simpa [buildConcatNFA] using h2.accept_bounds.1)
    obtain ⟨u, v, rfl, hu, hv⟩ := hlow
    refine ⟨u, v, rfl, hu, ?_⟩
    simpa [buildConcatNFA] using hv
  · rintro ⟨u, v, rfl, hu, hv⟩
    have hu' : Reach (n1.transitions
        ++ [⟨n1.acceptState, epsilon, n2.startState + n1.states.length⟩]
        ++ n2.transitions.map
            (fun t => ⟨t.from_ + n1.states.length, t.symbol, t.to_ + n1.states.length⟩))
        n1.startState u n1.acceptState :=
      hu.mono (fun t ht => by simp [ht])
    have hv' : Reach (n1.transitions
        ++ [⟨n1.acceptState, epsilon, n2.startState + n1.states.length⟩]
        ++ n2.transitions.map
            (fun t => ⟨t.from_ + n1.states.length, t.symbol, t.to_ + n1.states.length⟩))
        (n2.startState + n1.states.length) v (n2.acceptState + n1.states.length) :=
      (hv.map (fun x => x + (n1.states.length : Int))).mono
        (fun t ht => List.mem_append_right _ ht)
    have hb : Reach (n1.transitions
        ++ [⟨n1.acceptState, epsilon, n2.startState + n1.states.length⟩]
        ++ n2.transitions.map
            (fun t => ⟨t.from_ + n1.states.length, t.symbol, t.to_ + n1.states.length⟩))
        n1.acceptState v (n2.acceptState + n1.states.length) :=
      Reach.eps (by simp) hv'
    exact hu'.trans hb

/-- A witness for C2: the fragments for `.` and `0`, on the input `.0`. -/
theorem buildConcatNFA_language_witness :
    WellFormed (buildSymbolNFA '.') ∧ WellFormed (buildSymbolNFA '0') ∧
      (accepts (buildConcatNFA (buildSymbolNFA '.') (buildSymbolNFA '0')) ['.', '0'] = true ↔
        ∃ u v, ['.', '0'] = u ++ v ∧ accepts (buildSymbolNFA '.') u = true ∧
          accepts (buildSymbolNFA '0') v = true) :=
  ⟨by decide, by decide,
    buildConcatNFA_language (buildSymbolNFA '.') (buildSymbolNFA '0') (by decide) (by decide)
      ['.', '0']⟩

/-! ## The language of a closure -/

/-- No run leaves the fresh accept state `1` of a star-shaped fragment. -/
theorem star_reach_one {cts ts : List NFATransition} {s a : Int}
    (hmem : ∀ t, t ∈ cts → IsStarEdge ts s a t) (ha : 0 ≤ a)
    (h2 : ∀ t ∈ ts, 0 ≤ t.from_) {p r : Int} {w : List Char}
    (h : Reach cts p w r) (hp : p = 1) : w = [] ∧ r = 1 := by
  cases h with
  | refl => exact ⟨rfl, hp⟩
  | eps hm _ =>
    rcases hmem _ hm with h | h | h | h | ⟨t', ht', h⟩ <;>
      simp only [NFATransition.mk.injEq] at h
    · omega
    · omega
    · omega
    · omega
    · have := h2 t' ht'; omega
  | sym _ hm _ =>
    rcases hmem _ hm with h | h | h | h | ⟨t', ht', h⟩ <;>
      simp only [NFATransition.mk.injEq] at h
    · omega
    · omega
    · omega
    · omega
    · have := h2 t' ht'; omega

/-- A run of a star-shaped fragment from a copied state to the fresh accept state is a
run of the inner fragment to its accept state followed by complete inner runs. -/
theorem star_reach_inner {cts ts : List NFATransition} {s a : Int}
    (hmem : ∀ t, t ∈ cts → IsStarEdge ts s a t) (hs : 0 ≤ s) (ha : 0 ≤ a)
    (h2 : ∀ t ∈ ts, 0 ≤ t.from_ ∧ 0 ≤ t.to_) {p r : Int} {w : List Char}
    (h : Reach cts p w r) (hp : 2 ≤ p) (hr : r = 1) :
    ∃ u ws, w = u ++ List.flatten ws ∧ Reach ts (p - 2) u a ∧ ∀ x ∈ ws, Reach ts s x a := by
  induction h with
  | refl _ => omega
  | @eps p q r w hm hrest ih =>
    rcases hmem _ hm with h | h | h | h | ⟨t', ht', h⟩ <;>
      simp only [NFATransition.mk.injEq] at h
    · omega
    · omega
    · obtain ⟨rfl, -, rfl⟩ := h
      obtain ⟨u, ws, rfl, hu, hws⟩ := ih (by omega) hr
      refine ⟨[], u :: ws, by simp, ?_, ?_⟩
      · simpa using @Reach.refl ts a
      · intro x hx
        rcases List.mem_cons.1 hx with rfl | hx
        · simpa using hu
        · exact hws x hx
    · obtain ⟨rfl, -, rfl⟩ := h
      obtain ⟨rfl, -⟩ := star_reach_one hmem ha (fun t ht => (h2 t ht).1) hrest rfl
      refine ⟨[], [], by simp, ?_, by simp⟩
      simpa using @Reach.refl ts a
    · obtain ⟨hf, hsym, hto⟩ := h
      have hb := h2 t' ht'
      obtain ⟨u, ws, rfl, hu, hws⟩ := ih (by omega) hr
      refine ⟨u, ws, rfl, ?_, hws⟩
      have ht : (⟨p - 2, epsilon, q - 2⟩ : NFATransition) ∈ ts := by
        have : (⟨p - 2, epsilon, q - 2⟩ : NFATransition) = t' := by
          cases t'
          simp only [NFATransition.mk.injEq] at hf hsym hto ⊢
          exact ⟨by omega, hsym, by omega⟩
        rw [this]; exact ht'
      exact Reach.eps ht hu
  | @sym p q r c w hne hm hrest ih =>
    rcases hmem _ hm with h | h | h | h | ⟨t', ht', h⟩ <;>
      simp only [NFATransition.mk.injEq] at h
    · omega
    · omega
    · exact absurd h.2.1 hne
    · exact absurd h.2.1 hne
    · obtain ⟨hf, hsym, hto⟩ := h
      have hb := h2 t' ht'
      obtain ⟨u, ws, rfl, hu, hws⟩ := ih (by omega) hr
      refine ⟨c :: u, ws, rfl, ?_, hws⟩
      have ht : (⟨p - 2, QString.ofChar c, q - 2⟩ : NFATransition) ∈ ts := by
        have : (⟨p - 2, QString.ofChar c, q - 2⟩ : NFATransition) = t' := by
          cases t'
          simp only [NFATransition.mk.injEq] at hf hsym hto ⊢
          exact ⟨by omega, hsym, by omega⟩
        rw [this]; exact ht'
      exact Reach.sym hne ht hu

/-- Every accepting run of a star-shaped fragment spells a sequence of inner words. -/
theorem star_reach_start {cts ts : List NFATransition} {s a : Int}
    (hmem : ∀ t, t ∈ cts → IsStarEdge ts s a t) (hs : 0 ≤ s) (ha : 0 ≤ a)
    (h2 : ∀ t ∈ ts, 0 ≤ t.from_ ∧ 0 ≤ t.to_) {p r : Int} {w : List Char}
    (h : Reach cts p w r) (hp : p = 0) (hr : r = 1) :
    ∃ ws, w = List.flatten ws ∧ ∀ x ∈ ws, Reach ts s x a := by
  cases h with
  | refl => omega
  | @eps _ q _ _ hm hrest =>
    rcases hmem _ hm with h | h | h | h | ⟨t', ht', h⟩ <;>
      simp only [NFATransition.mk.injEq] at h
    · obtain ⟨-, -, rfl⟩ := h
      obtain ⟨u, ws, rfl, hu, hws⟩ := star_reach_inner hmem hs ha h2 hrest (by omega) hr
      refine ⟨u :: ws, by simp, ?_⟩
      intro x hx
      rcases List.mem_cons.1 hx with rfl | hx
      · simpa using hu
      · exact hws x hx
    · obtain ⟨-, -, rfl⟩ := h
      obtain ⟨rfl, -⟩ := star_reach_one hmem ha (fun t ht => (h2 t ht).1) hrest rfl
      exact ⟨[], by simp, by simp⟩
    · omega
    · omega
    · have := h2 t' ht'; omega
  | sym hne hm _ =>
    rcases hmem _ hm with h | h | h | h | ⟨t', ht', h⟩ <;>
      simp only [NFATransition.mk.injEq] at h
    · exact absurd h.2.1 hne
    · exact absurd h.2.1 hne
    · omega
    · omega
    · have := h2 t' ht'; omega

/-- A sequence of inner words is spelled by a run of the star-shaped fragment from the
copied accept state to the fresh accept state. -/
theorem star_reach_of_words {cts ts : List NFATransition} {s a : Int}
    (hmem : ∀ t, IsStarEdge ts s a t → t ∈ cts) (ws : List (List Char))
    (hws : ∀ x ∈ ws, Reach ts s x a) : Reach cts (a + 2) (List.flatten ws) 1 := by
  induction ws with
  | nil =>
    exact Reach.eps (hmem _ (Or.inr (Or.inr (Or.inr (Or.inl rfl))))) (Reach.refl _)
  | cons x ws ih =>
    have hx : Reach cts (s + 2) x (a + 2) :=
      ((hws x (List.mem_cons_self _ _)).map (fun i => i + 2)).mono (fun t ht => by
        obtain ⟨t', ht', rfl⟩ := List.mem_map.1 ht
        exact hmem _ (Or.inr (Or.inr (Or.inr (Or.inr ⟨t', ht', rfl⟩)))))
    have hrest := ih (fun y hy => hws y (List.mem_cons_of_mem _ hy))
    rw [List.flatten_cons]
    exact Reach.eps (hmem _ (Or.inr (Or.inr (Or.inl rfl)))) (hx.trans hrest)

/-- The language of a star-shaped fragment is the star of the inner language. -/
theorem star_language {cts ts : List NFATransition} {s a : Int}
    (hmem : ∀ t, t ∈ cts ↔ IsStarEdge ts s a t) (hs : 0 ≤ s) (ha : 0 ≤ a)
    (h2 : ∀ t ∈ ts, 0 ≤ t.from_ ∧ 0 ≤ t.to_) (w : List Char) :
    Reach cts 0 w 1 ↔ ∃ ws, w = List.flatten ws ∧ ∀ x ∈ ws, Reach ts s x a := by
  constructor
  · intro h
    exact star_reach_start (fun t ht => (hmem t).1 ht) hs ha h2 h rfl rfl
  · rintro ⟨ws, rfl, hws⟩
    cases ws with
    | nil => exact Reach.eps ((hmem _).2 (Or.inr (Or.inl rfl))) (Reach.refl _)
    | cons x ws =>
      have hx : Reach cts (s + 2) x (a + 2) :=
        ((hws x (List.mem_cons_self _ _)).map (fun i => i + 2)).mono (fun t ht => by
          obtain ⟨t', ht', rfl⟩ := List.mem_map.1 ht
          exact (hmem _).2 (Or.inr (Or.inr (Or.inr (Or.inr ⟨t', ht', rfl⟩)))))
      have hrest := star_reach_of_words (fun t ht => (hmem t).2 ht) ws
        (fun y hy => hws y (List.mem_cons_of_mem _ hy))
      rw [List.flatten_cons]
      exact Reach.eps ((hmem _).2 (Or.inl rfl)) (hx.trans hrest)

/-- Under positional ids the closure's id map shifts every state id by 2. -/
theorem closureIdMap_of_wf (n : NFA) (h : PositionalIds n) (x : Int) (hx : IsStateId n x) :
    (closureIdMap n).get x = x + 2 := by
  unfold closureIdMap QMap.get
  rw [addStates_idMap_positional n.states freshPair h x hx]
  simp [freshPair, add_comm]

/-- For a well-formed fragment whose only accept-flagged state is the declared accept
state, the closure is star-shaped over the fragment's transitions. -/
theorem closure_isStarEdge (n : NFA) (hwf : WellFormed n)
    (hacc : ∀ s ∈ n.states, s.isAccept = true ↔ s.id = n.acceptState) (t : NFATransition) :
    t ∈ (buildClosureNFA n).transitions
      ↔ IsStarEdge n.transitions n.startState n.acceptState t := by
  have hm := closureIdMap_of_wf n hwf.1
  have hstart := hm _ hwf.2.1
  have haccept := hm _ hwf.2.2.1
  obtain ⟨sa, hsa, hsaid⟩ := List.mem_map.1 hwf.2.2.1
  rw [closure_transitions]
  simp only [List.mem_append, List.mem_cons, List.mem_singleton, List.not_mem_nil, or_false,
    List.mem_flatMap, List.mem_filter, List.mem_map, closureLoopEdges, IsStarEdge, hstart]
  constructor
  · rintro (((h | h) | ⟨s, ⟨hs, hflag⟩, h⟩) | ⟨t', ht', rfl⟩)
    · exact Or.inl h
    · exact Or.inr (Or.inl h)
    · have hid := (hacc s hs).1 hflag
      rw [hid, haccept] at h
      rcases h with h | h
      · exact Or.inr (Or.inr (Or.inl h))
      · exact Or.inr (Or.inr (Or.inr (Or.inl h)))
    · refine Or.inr (Or.inr (Or.inr (Or.inr ⟨t', ht', ?_⟩)))
      simp only [remap, hm _ (hwf.2.2.2 t' ht').1, hm _ (hwf.2.2.2 t' ht').2]
  · rintro (h | h | h | h | ⟨t', ht', rfl⟩)
    · exact Or.inl (Or.inl (Or.inl h))
    · exact Or.inl (Or.inl (Or.inr h))
    · refine Or.inl (Or.inr ⟨sa, ⟨hsa, (hacc sa hsa).2 hsaid⟩, Or.inl ?_⟩)
      rw [hsaid, haccept]; exact h
    · refine Or.inl (Or.inr ⟨sa, ⟨hsa, (hacc sa hsa).2 hsaid⟩, Or.inr ?_⟩)
      rw [hsaid, haccept]; exact h
    · refine Or.inr ⟨t', ht', ?_⟩
      simp only [remap, hm _ (hwf.2.2.2 t' ht').1, hm _ (hwf.2.2.2 t' ht').2]

/-- C3: for every well-formed fragment `n` whose only accept-flagged state is its
declared accept state, and every input `w`, `buildClosureNFA(n)` accepts `w` if and only
if `w` is the concatenation of `k ≥ 0` strings each accepted by `n`. -/
theorem buildClosureNFA_language (n : NFA) (hwf : WellFormed n)
    (hacc : ∀ s ∈ n.states, s.isAccept = true ↔ s.id = n.acceptState) (w : List Char) :
    accepts (buildClosureNFA n) w = true ↔
      ∃ ws : List (List Char), w = List.flatten ws ∧ ∀ x ∈ ws, accepts n x = true := by
  simp only [accepts_iff, Accepts]
  exact star_language (closure_isStarEdge n hwf hacc) hwf.start_bounds.1
    hwf.accept_bounds.1 (fun t ht => ⟨(hwf.from_bounds ht).1, (hwf.to_bounds ht).1⟩) w

/-- A witness for C3: the closure of the one-symbol fragment for `a`, on the input `aa`. -/
theorem buildClosureNFA_language_witness :
    WellFormed (buildSymbolNFA 'a') ∧
      (∀ s ∈ (buildSymbolNFA 'a').states,
        s.isAccept = true ↔ s.id = (buildSymbolNFA 'a').acceptState) ∧
      (accepts (buildClosureNFA (buildSymbolNFA 'a')) ['a', 'a'] = true ↔
        ∃ ws : List (List Char), ['a', 'a'] = List.flatten ws ∧
          ∀ x ∈ ws, accepts (buildSymbolNFA 'a') x = true) :=
  ⟨by decide, by decide,
    buildClosureNFA_language (buildSymbolNFA 'a') (by decide) (by decide) ['a', 'a']⟩

/-! ## The string-literal fragment -/

theorem literal_fold (str : List Char) (st : LiteralState)
    (hinv : st.counter = st.lastState + 1) :
    (str.foldl literalStep st).counter = st.counter + str.length ∧
      (str.foldl literalStep st).lastState = st.lastState + str.length ∧
      (str.foldl literalStep st).states = st.states ++ chainStates st.counter str ∧
      (str.foldl literalStep st).transitions
        = st.transitions ++ chainEdges st.lastState str := by
  induction str generalizing st with
  | nil => simp [chainStates, chainEdges]
  | cons c cs ih =>
    have hstep : (literalStep st c).counter = (literalStep st c).lastState + 1 := by
      simp [literalStep, getNextId]
    obtain ⟨h1, h2, h3, h4⟩ := ih (literalStep st c) hstep
    rw [List.foldl_cons, h1, h2, h3, h4]
    simp only [literalStep, getNextId, List.length_cons, chainStates, chainEdges,
      List.append_assoc, List.singleton_append, hinv, Nat.cast_add, Nat.cast_one]
    refine ⟨by omega, by omega, trivial, trivial⟩

/-- The fragment built for a literal, in closed form. -/
theorem buildStringLiteralNFA_eq (str : List Char) :
    buildStringLiteralNFA str =
      { states := ⟨0, false⟩ :: chainStates 1 str ++ [⟨(str.length : Int) + 1, true⟩]
        transitions := chainEdges 0 str ++ [⟨str.length, epsilon, (str.length : Int) + 1⟩]
        startState := 0
        acceptState := (str.length : Int) + 1 } := by
  obtain ⟨h1, h2, h3, h4⟩ := literal_fold str literalInit rfl
  unfold buildStringLiteralNFA
  simp only [h1, h2, h3, h4]
  simp [getNextId, literalInit, freshCounter, add_comm]

theorem chainStates_length (k : Int) (str : List Char) :
    (chainStates k str).length = str.length := by
  induction str generalizing k with
  | nil => rfl
  | cons c cs ih => simp [chainStates, ih]

theorem chainEdges_length (k : Int) (str : List Char) :
    (chainEdges k str).length = str.length := by
  induction str generalizing k with
  | nil => rfl
  | cons c cs ih => simp [chainEdges, ih]

theorem mem_chainEdges {k : Int} {str : List Char} {t : NFATransition}
    (ht : t ∈ chainEdges k str) :
    ∃ j : Nat, ∃ c : Char, str[j]? = some c ∧ t = ⟨k + j, QString.ofChar c, k + j + 1⟩ := by
  induction str generalizing k with
  | nil => simp [chainEdges] at ht
  | cons c cs ih =>
    simp only [chainEdges, List.mem_cons] at ht
    rcases ht with rfl | ht
    · exact ⟨0, c, by simp, by simp⟩
    · obtain ⟨j, d, hj, rfl⟩ := ih ht
      refine ⟨j + 1, d, by simpa using hj, ?_⟩
      simp only [NFATransition.mk.injEq, Nat.cast_add, Nat.cast_one, true_and]
      constructor <;> omega

theorem drop_of_getElem? {str : List Char} {j : Nat} {c : Char} (h : str[j]? = some c) :
    str.drop j = c :: str.drop (j + 1) := by
  obtain ⟨hj, rfl⟩ := List.getElem?_eq_some_iff.1 h
  exact List.drop_eq_getElem_cons hj

theorem ofChar_ne_epsilon_of_mem {str : List Char} (hstr : 'ε' ∉ str) {j : Nat} {c : Char}
    (h : str[j]? = some c) : QString.ofChar c ≠ epsilon := by
  intro he
  have : c = 'ε' := by simpa [QString.ofChar, epsilon] using he
  subst this
  obtain ⟨hj, hc⟩ := List.getElem?_eq_some_iff.1 h
  exact hstr (hc ▸ List.getElem_mem hj)

/-- A run of the literal's chain to the accept state spells the rest of the literal. -/
theorem literal_reach_sound {str : List Char} (hstr : 'ε' ∉ str) {p r : Int} {w : List Char}
    (h : Reach (chainEdges 0 str ++ [⟨str.length, epsilon, (str.length : Int) + 1⟩]) p w r)
    (i : Nat) (hp : p = i) (hr : r = (str.length : Int) + 1) : w = str.drop i := by
  induction h generalizing i with
  | refl _ =>
    have : str.length + 1 = i := by omega
    subst this
    simp
  | @eps p q r w hm _ ih =>
    simp only [List.mem_append, List.mem_singleton] at hm
    rcases hm with hm | hm
    · obtain ⟨j, c, hj, hc⟩ := mem_chainEdges hm
      simp only [NFATransition.mk.injEq] at hc
      exact absurd hc.2.1.symm (ofChar_ne_epsilon_of_mem hstr hj)
    · simp only [NFATransition.mk.injEq] at hm
      have hw := ih (i + 1) (by push_cast; omega) hr
      have hi : i = str.length := by omega
      subst hi
      rw [hw, List.drop_length]
      exact List.drop_eq_nil_of_le (Nat.le_succ _)
  | @sym p q r c w hne hm _ ih =>
    simp only [List.mem_append, List.mem_singleton] at hm
    rcases hm with hm | hm
    · obtain ⟨j, d, hj, hc⟩ := mem_chainEdges hm
      simp only [NFATransition.mk.injEq, QString.ofChar, List.cons.injEq, and_true] at hc
      obtain ⟨hpj, rfl, hq⟩ := hc
      have hij : j = i := by omega
      subst hij
      rw [drop_of_getElem? hj, ih (j + 1) (by push_cast; omega) hr]
    · simp only [NFATransition.mk.injEq] at hm
      exact absurd hm.2.1 hne

/-- The chain spells the literal from its first state to the state after the last edge. -/
theorem literal_reach_complete (str : List Char) (hstr : 'ε' ∉ str) (k : Int)
    (rest : List NFATransition) :
    Reach (chainEdges k str ++ rest) k str (k + str.length) := by
  induction str generalizing k with
  | nil => simpa using @Reach.refl (chainEdges k [] ++ rest) k
  | cons c cs ih =>
    have hc : QString.ofChar c ≠ epsilon := by
      intro he
      have : c = 'ε' := by simpa [QString.ofChar, epsilon] using he
      exact hstr (this ▸ List.mem_cons_self _ _)
    have hrest := ih (fun h => hstr (List.mem_cons_of_mem _ h)) (k + 1)
    have hrest' : Reach (chainEdges k (c :: cs) ++ rest) (k + 1) cs (k + 1 + cs.length) :=
      hrest.mono (fun t ht => by
        simp only [chainEdges, List.cons_append, List.mem_cons]
        exact Or.inr ht)
    have hedge : (⟨k, QString.ofChar c, k + 1⟩ : NFATransition)
        ∈ chainEdges k (c :: cs) ++ rest := by
      simp [chainEdges]
    have := Reach.sym hc hedge hrest'
    simpa [add_assoc, add_comm (1 : Int)] using this

/-- The literal's fragment accepts exactly the literal. -/
theorem literal_accepts_iff (str : List Char) (hstr : 'ε' ∉ str) (w : List Char) :
    accepts (buildStringLiteralNFA str) w = true ↔ w = str := by
  rw [accepts_iff, Accepts, buildStringLiteralNFA_eq]
  constructor
  · intro h
    simpa using literal_reach_sound hstr h 0 rfl rfl
  · rintro rfl
    have h := literal_reach_complete w hstr 0
      [⟨w.length, epsilon, (w.length : Int) + 1⟩]
    have hlast : Reach (chainEdges 0 w ++ [⟨w.length, epsilon, (w.length : Int) + 1⟩])
        (0 + (w.length : Int)) [] ((w.length : Int) + 1) :=
      Reach.eps (by simp) (Reach.refl _)
    simpa using h.trans hlast

/-- C10: for every literal `str` not containing the character `ε` and every input `w`,
`buildStringLiteralNFA(str)` accepts `w` if and only if `w = str`; so every proper prefix
of `str`, every proper extension of `str` and, for non-empty `str`, the empty string are
rejected. The fragment has `|str| + 2` states and `|str| + 1` transitions, the last of
which is the epsilon edge into the accept state. -/
theorem buildStringLiteralNFA_language (str : List Char) (hstr : 'ε' ∉ str) (w : List Char) :
    (accepts (buildStringLiteralNFA str) w = true ↔ w = str) ∧
      (∀ u : List Char, u <+: str → u ≠ str →
        accepts (buildStringLiteralNFA str) u = false) ∧
      (∀ v : List Char, v ≠ [] → accepts (buildStringLiteralNFA str) (str ++ v) = false) ∧
      (str ≠ [] → accepts (buildStringLiteralNFA str) [] = false) ∧
      (buildStringLiteralNFA str).states.length = str.length + 2 ∧
      (buildStringLiteralNFA str).transitions.length = str.length + 1 ∧
      (buildStringLiteralNFA str).transitions.getLast?
        = some ⟨str.length, epsilon, (buildStringLiteralNFA str).acceptState⟩ := by
  have hrej : ∀ x : List Char, x ≠ str → accepts (buildStringLiteralNFA str) x = false := by
    intro x hx
    cases hacc : accepts (buildStringLiteralNFA str) x
    · rfl
    · exact absurd ((literal_accepts_iff str hstr x).1 hacc) hx
  refine ⟨literal_accepts_iff str hstr w, fun u _ hu => hrej u hu, ?_,
    fun h => hrej [] (Ne.symm h), ?_, ?_, ?_⟩
  · intro v hv
    apply hrej
    intro h
    exact hv (by simpa using h)
  · rw [buildStringLiteralNFA_eq]; simp [chainStates_length]
  · rw [buildStringLiteralNFA_eq]; simp [chainEdges_length]
  · rw [buildStringLiteralNFA_eq]; simp

/-- A witness for C10: the literal `Print`, on the input `Print`. -/
theorem buildStringLiteralNFA_language_witness :
    'ε' ∉ ['P', 'r', 'i', 'n', 't'] ∧
      (accepts (buildStringLiteralNFA ['P', 'r', 'i', 'n', 't']) ['P', 'r', 'i', 'n', 't']
        = true ↔ ['P', 'r', 'i', 'n', 't'] = ['P', 'r', 'i', 'n', 't']) :=
  ⟨by decide, (buildStringLiteralNFA_language ['P', 'r', 'i', 'n', 't'] (by decide)
    ['P', 'r', 'i', 'n', 't']).1⟩

/-! ## The union combinator on concrete fragments

Both `addStates` calls of `buildUnionNFA` write into one id map keyed by the old state
ids. The ids of both operands start at 0, so the entries written for the second operand
replace those of the first, and the edges of the first operand are copied onto states
imported from the second. -/

/-- C1, evaluated: with `n1 = buildSymbolNFA('0')` and
`n2 = buildConcatNFA(buildSymbolNFA('.'), buildSymbolNFA('0'))`, both well-formed, the
union accepts the input `.`, which neither `n1` nor `n2` accepts. -/
theorem buildUnionNFA_accepts_foreign_word :
    WellFormed (buildSymbolNFA '0') ∧
      WellFormed (buildConcatNFA (buildSymbolNFA '.') (buildSymbolNFA '0')) ∧
      accepts (buildUnionNFA (buildSymbolNFA '0')
        (buildConcatNFA (buildSymbolNFA '.') (buildSymbolNFA '0'))) ['.'] = true ∧
      accepts (buildSymbolNFA '0') ['.'] = false ∧
      accepts (buildConcatNFA (buildSymbolNFA '.') (buildSymbolNFA '0')) ['.'] = false := by
  decide

/-- C4, evaluated: with `n1 = buildSymbolNFA('0')` and `n2 = buildSymbolNFA('1')`, the
accept-flagged state of `n1` has id 1, yet the union has no transition `(3, "ε", 1)`;
both accept edges leave state 5, the copy of the accept state of `n2`. -/
theorem buildUnionNFA_accept_edge_missing :
    (⟨1, true⟩ : NFAState) ∈ (buildSymbolNFA '0').states ∧
      (⟨1 + 2, epsilon, 1⟩ : NFATransition)
        ∉ (buildUnionNFA (buildSymbolNFA '0') (buildSymbolNFA '1')).transitions ∧
      (buildUnionNFA (buildSymbolNFA '0') (buildSymbolNFA '1')).transitions.filter
          (fun t => decide (t.to_ = 1))
        = [⟨5, epsilon, 1⟩, ⟨5, epsilon, 1⟩] := by
  decide

/-- C5, evaluated: with `n1 = buildSymbolNFA('0')` and `n2 = buildSymbolNFA('1')`, the
union's transition list is `(0,ε,4), (0,ε,4), (5,ε,1), (5,ε,1), (4,'0',5), (4,'1',5)`:
the first start edge is not `(0, "ε", 2)` and the transition `(0,'0',1)` of `n1` does not
appear as `(2,'0',3)`. -/
theorem buildUnionNFA_first_operand_miswired :
    (buildUnionNFA (buildSymbolNFA '0') (buildSymbolNFA '1')).transitions
        = [⟨0, epsilon, 4⟩, ⟨0, epsilon, 4⟩, ⟨5, epsilon, 1⟩, ⟨5, epsilon, 1⟩,
           ⟨4, QString.ofChar '0', 5⟩, ⟨4, QString.ofChar '1', 5⟩] ∧
      (⟨0, epsilon, (buildSymbolNFA '0').startState + 2⟩ : NFATransition)
        ∉ (buildUnionNFA (buildSymbolNFA '0') (buildSymbolNFA '1')).transitions ∧
      (⟨0 + 2, QString.ofChar '0', 1 + 2⟩ : NFATransition)
        ∉ (buildUnionNFA (buildSymbolNFA '0') (buildSymbolNFA '1')).transitions := by
  decide

/-! ## Token-class automata -/

/-- The one-symbol fragment has the runs `p → p` on the empty word and `0 → 1` on its
symbol, and no other. -/
theorem symbol_reach {c : Char} (hc : QString.ofChar c ≠ epsilon) {p r : Int}
    {w : List Char} (h : Reach [⟨0, QString.ofChar c, 1⟩] p w r) :
    (p = r ∧ w = []) ∨ (p = 0 ∧ r = 1 ∧ w = [c]) := by
  induction h with
  | refl _ => exact Or.inl ⟨rfl, rfl⟩
  | eps hm _ _ =>
    simp only [List.mem_singleton, NFATransition.mk.injEq] at hm
    exact absurd hm.2.1.symm hc
  | sym _ hm _ ih =>
    simp only [List.mem_singleton, NFATransition.mk.injEq, QString.ofChar,
      List.cons.injEq, and_true] at hm
    obtain ⟨rfl, rfl, rfl⟩ := hm
    rcases ih with ⟨rfl, rfl⟩ | ⟨h0, -, -⟩
    · exact Or.inr ⟨rfl, rfl, rfl⟩
    · omega

/-- The one-symbol fragment accepts exactly its symbol. -/
theorem symbol_accepts_iff {c : Char} (hc : QString.ofChar c ≠ epsilon) (w : List Char) :
    Reach (buildSymbolNFA c).transitions 0 w 1 ↔ w = [c] := by
  constructor
  · intro h
    rcases symbol_reach hc h with ⟨h01, -⟩ | ⟨-, -, hw⟩
    · omega
    · exact hw
  · rintro rfl
    exact Reach.sym hc (List.mem_singleton.2 rfl) (Reach.refl _)

theorem flatten_of_all_eq (c : Char) (w : List Char) :
    (∃ ws : List (List Char), w = List.flatten ws ∧ ∀ x ∈ ws, x = [c]) ↔ ∀ d ∈ w, d = c := by
  constructor
  · rintro ⟨ws, rfl, hws⟩ d hd
    obtain ⟨x, hx, hdx⟩ := List.mem_flatten.1 hd
    rw [hws x hx] at hdx
    simpa using hdx
  · intro h
    refine ⟨w.map (fun _ => [c]), ?_, ?_⟩
    · induction w with
      | nil => rfl
      | cons d w ih =>
        have hd : d = c := h d (List.mem_cons_self _ _)
        rw [List.map_cons, List.flatten_cons, ← ih (fun e he => h e (List.mem_cons_of_mem _ he)),
          hd]
        rfl
    · intro x hx
      obtain ⟨_, _, rfl⟩ := List.mem_map.1 hx
      rfl

/-- C11: `buildIdentifierNFA() = buildClosureNFA(buildSymbolNFA('a'))` accepts an input
`w` if and only if every character of `w` is `a`; in particular it accepts the empty
string, `a` and `aa`, and rejects `b`. -/
theorem buildIdentifierNFA_language (w : List Char) :
    buildIdentifierNFA = buildClosureNFA (buildSymbolNFA 'a') ∧
      (accepts buildIdentifierNFA w = true ↔ ∀ c ∈ w, c = 'a') ∧
      accepts buildIdentifierNFA [] = true ∧
      accepts buildIdentifierNFA ['a'] = true ∧
      accepts buildIdentifierNFA ['a', 'a'] = true ∧
      accepts buildIdentifierNFA ['b'] = false := by
  refine ⟨rfl, ?_, by decide, by decide, by decide, by decide⟩
  have hstar := star_language
    (closure_isStarEdge (buildSymbolNFA 'a') (by decide) (by decide))
    (by decide) (by decide) (by decide) w
  have hc : QString.ofChar 'a' ≠ epsilon := by decide
  rw [accepts_iff]
  unfold Accepts buildIdentifierNFA
  rw [show (buildClosureNFA (buildSymbolNFA 'a')).startState = 0 from rfl,
    show (buildClosureNFA (buildSymbolNFA 'a')).acceptState = 1 from rfl, hstar,
    ← flatten_of_all_eq]
  constructor
  · rintro ⟨ws, hw, hws⟩
    exact ⟨ws, hw, fun x hx => (symbol_accepts_iff hc x).1 (hws x hx)⟩
  · rintro ⟨ws, hw, hws⟩
    exact ⟨ws, hw, fun x hx => (symbol_accepts_iff hc x).2 (hws x hx)⟩

/-- C12: `buildNumberNFA()`, the union of the fragment for `0` with the concatenation of
the fragments for `.` and `0`, accepts `0` and `.0` and rejects the empty string and
`a`. -/
theorem buildNumberNFA_samples :
    buildNumberNFA = buildUnionNFA (buildSymbolNFA '0')
        (buildConcatNFA (buildSymbolNFA '.') (buildSymbolNFA '0')) ∧
      accepts buildNumberNFA ['0'] = true ∧
      accepts buildNumberNFA ['.', '0'] = true ∧
      accepts buildNumberNFA [] = false ∧
      accepts buildNumberNFA ['a'] = false := by
  refine ⟨rfl, by decide, by decide, by decide, by decide⟩

/-- C15: the automaton selected for a key is `buildIdentifierNFA()` for `Identifier`,
`buildNumberNFA()` for `Number`, `buildStringLiteralNFA("Print")` for `String`, and
`buildSymbolNFA('a')` for every other key, the empty key and differently-cased keys
included; every key selects an automaton with at least one state. -/
theorem selectNFA_dispatch :
    selectNFA "Identifier".toList = buildIdentifierNFA ∧
      selectNFA "Number".toList = buildNumberNFA ∧
      selectNFA "String".toList = buildStringLiteralNFA "Print".toList ∧
      (∀ key : QString, key ≠ "Identifier".toList → key ≠ "Number".toList →
        key ≠ "String".toList → selectNFA key = buildSymbolNFA 'a') ∧
      selectNFA [] = buildSymbolNFA 'a' ∧
      selectNFA "identifier".toList = buildSymbolNFA 'a' ∧
      selectNFA "NUMBER".toList = buildSymbolNFA 'a' ∧
      ∀ key : QString, (selectNFA key).states ≠ [] := by
  have hother : ∀ key : QString, key ≠ "Identifier".toList → key ≠ "Number".toList →
      key ≠ "String".toList → selectNFA key = buildSymbolNFA 'a' := by
    intro key h1 h2 h3
    simp only [selectNFA, h1, h2, h3, if_false]
  refine ⟨by decide, by decide, by decide, hother, by decide, by decide, by decide, ?_⟩
  intro key
  unfold selectNFA
  split
  · decide
  · split
    · decide
    · split
      · rw [buildStringLiteralNFA_eq]; simp
      · decide

/-- A witness for C15: the lower-case key `identifier` falls through to the default. -/
theorem selectNFA_dispatch_witness :
    "identifier".toList ≠ "Identifier".toList ∧ "identifier".toList ≠ "Number".toList ∧
      "identifier".toList ≠ "String".toList ∧
      selectNFA "identifier".toList = buildSymbolNFA 'a' :=
  ⟨by decide, by decide, by decide,
    selectNFA_dispatch.2.2.2.1 "identifier".toList (by decide) (by decide) (by decide)⟩

/-! ## Position equals id -/

theorem positionalFrom_cons {k : Int} {a : NFAState} {l : List NFAState} :
    PositionalFrom k (a :: l) ↔ a.id = k ∧ PositionalFrom (k + 1) l := by
  constructor
  · intro h
    refine ⟨by simpa using h 0 a (List.getElem?_cons_zero), fun i s hs => ?_⟩
    have := h (i + 1) s (by simpa using hs)
    rw [this]; push_cast; omega
  · rintro ⟨ha, hl⟩ i s hs
    cases i with
    | zero =>
      simp only [List.getElem?_cons_zero, Option.some.injEq] at hs
      subst hs
      simpa using ha
    | succ i =>
      have := hl i s (by simpa using hs)
      rw [this]; push_cast; omega

theorem positionalFrom_nil (k : Int) : PositionalFrom k [] := by
  intro i s hs
  simp at hs

theorem positionalFrom_append {k : Int} {l1 l2 : List NFAState} (h1 : PositionalFrom k l1)
    (h2 : PositionalFrom (k + l1.length) l2) : PositionalFrom k (l1 ++ l2) := by
  induction l1 generalizing k with
  | nil => simpa using h2
  | cons a l ih =>
    rw [List.cons_append, positionalFrom_cons]
    rw [positionalFrom_cons] at h1
    refine ⟨h1.1, ih h1.2 ?_⟩
    have hk : k + 1 + (l.length : Int) = k + ((a :: l).length : Int) := by
      simp only [List.length_cons]; push_cast; omega
    rw [hk]; exact h2

theorem positionalFrom_map {k : Int} {l : List NFAState} (f : NFAState → NFAState)
    (hf : ∀ s, (f s).id = s.id) (h : PositionalFrom k l) : PositionalFrom k (l.map f) := by
  intro i s hs
  rw [List.getElem?_map] at hs
  cases hl : l[i]? with
  | none => simp [hl] at hs
  | some a =>
    simp only [hl, Option.map_some', Option.some.injEq] at hs
    rw [← hs, hf]
    exact h i a hl

theorem positionalFrom_shift {l : List NFAState} (k : Int) (h : PositionalFrom 0 l) :
    PositionalFrom k (l.map (fun s => (⟨s.id + k, s.isAccept⟩ : NFAState))) := by
  intro i s hs
  rw [List.getElem?_map] at hs
  cases hl : l[i]? with
  | none => simp [hl] at hs
  | some a =>
    simp only [hl, Option.map_some', Option.some.injEq] at hs
    rw [← hs]
    have := h i a hl
    simp only at this ⊢
    omega

theorem positionalFrom_importedStates (k : Int) (ss : List NFAState) :
    PositionalFrom k (importedStates k ss) := by
  induction ss generalizing k with
  | nil => exact positionalFrom_nil k
  | cons a ss ih =>
    simp only [importedStates]
    exact positionalFrom_cons.2 ⟨rfl, ih (k + 1)⟩

theorem positionalFrom_chainStates (k : Int) (str : List Char) :
    PositionalFrom k (chainStates k str) := by
  induction str generalizing k with
  | nil => exact positionalFrom_nil k
  | cons c cs ih =>
    simp only [chainStates]
    exact positionalFrom_cons.2 ⟨rfl, ih (k + 1)⟩

theorem positionalIds_iff (n : NFA) : PositionalIds n ↔ PositionalFrom 0 n.states := by
  constructor
  · intro h i s hs
    obtain ⟨hi, rfl⟩ := List.getElem?_eq_some_iff.1 hs
    rw [positional_id_getElem h i hi]; simp
  · intro h
    unfold PositionalIds
    apply List.ext_getElem?
    intro i
    simp only [List.getElem?_map]
    by_cases hi : i < n.states.length
    · have := h i n.states[i] (List.getElem?_eq_getElem hi)
      simp [List.getElem?_eq_getElem hi, List.getElem?_range hi, this]
    · have hi' := not_lt.1 hi
      rw [List.getElem?_eq_none hi', List.getElem?_eq_none (by simpa using hi')]
      rfl

theorem union_states (n1 n2 : NFA) :
    (buildUnionNFA n1 n2).states
      = ([⟨0, false⟩, ⟨1, true⟩] : List NFAState) ++ importedStates 2 n1.states
        ++ importedStates (2 + n1.states.length) n2.states := by
  simp only [buildUnionNFA, addStates_states, addStates_nextId]
  rfl

theorem positional_symbol (c : Char) : PositionalIds (buildSymbolNFA c) := by
  simp [PositionalIds, buildSymbolNFA, getNextId, freshCounter, List.range_succ]

theorem positional_literal (str : List Char) : PositionalIds (buildStringLiteralNFA str) := by
  rw [positionalIds_iff, buildStringLiteralNFA_eq]
  show PositionalFrom 0 (⟨0, false⟩ :: chainStates 1 str ++ [⟨(str.length : Int) + 1, true⟩])
  rw [List.cons_append, positionalFrom_cons]
  refine ⟨rfl, positionalFrom_append (by simpa using positionalFrom_chainStates 1 str) ?_⟩
  rw [chainStates_length, positionalFrom_cons]
  exact ⟨by simp only; omega, positionalFrom_nil _⟩

theorem positional_closure (n : NFA) : PositionalIds (buildClosureNFA n) := by
  rw [positionalIds_iff, closure_states]
  apply positionalFrom_map
  · intro s; split <;> rfl
  · rw [List.cons_append, List.cons_append, List.nil_append, positionalFrom_cons,
      positionalFrom_cons]
    exact ⟨rfl, rfl, by simpa using positionalFrom_importedStates 2 n.states⟩

theorem positional_union (n1 n2 : NFA) : PositionalIds (buildUnionNFA n1 n2) := by
  rw [positionalIds_iff, union_states]
  apply positionalFrom_append
  · rw [List.cons_append, List.cons_append, List.nil_append, positionalFrom_cons,
      positionalFrom_cons]
    exact ⟨rfl, rfl, by simpa using positionalFrom_importedStates 2 n1.states⟩
  · have hlen : (0 : Int) + ((([⟨0, false⟩, ⟨1, true⟩] : List NFAState)
        ++ importedStates 2 n1.states).length : Int) = 2 + n1.states.length := by
      simp [importedStates_length]; omega
    rw [hlen]
    exact positionalFrom_importedStates _ _

theorem positional_concat (n1 n2 : NFA) (h1 : PositionalIds n1) (h2 : PositionalIds n2) :
    PositionalIds (buildConcatNFA n1 n2) := by
  rw [positionalIds_iff] at h1 h2 ⊢
  unfold buildConcatNFA demote
  apply positionalFrom_map
  · intro s; split <;> rfl
  · apply positionalFrom_append h1
    simpa using positionalFrom_shift (n1.states.length : Int) h2

theorem contiguous_of_positional {n : NFA} (h : PositionalIds n) : ContiguousIds n :=
  ⟨positional_nodup h, positional_mem_iff h⟩

/-! ## The id maps under positional ids -/

/-- Ids of the second operand are looked up at the offset `2 + |n1.states|`. -/
theorem unionIdMap_second (n1 n2 : NFA) (h2 : PositionalIds n2) (x : Int)
    (hx : IsStateId n2 x) : (unionIdMap n1 n2).get x = x + 2 + n1.states.length := by
  unfold unionIdMap QMap.get
  rw [addStates_idMap_positional n2.states _ h2 x hx, addStates_nextId]
  simp only [freshPair]
  omega

/-- Ids of the first operand that are not ids of the second keep the offset 2. -/
theorem unionIdMap_first (n1 n2 : NFA) (h1 : PositionalIds n1) (x : Int)
    (hx1 : IsStateId n1 x) (hx2 : ¬ IsStateId n2 x) : (unionIdMap n1 n2).get x = x + 2 := by
  unfold unionIdMap QMap.get
  rw [addStates_idMap_of_not_mem n2.states _ x hx2,
    addStates_idMap_positional n1.states _ h1 x hx1]
  simp only [freshPair]
  omega

theorem closure_transitions_of_wf (n : NFA) (hp : PositionalIds n)
    (hs : IsStateId n n.startState)
    (ht : ∀ t ∈ n.transitions, IsStateId n t.from_ ∧ IsStateId n t.to_) :
    (buildClosureNFA n).transitions
      = [⟨0, epsilon, n.startState + 2⟩, ⟨0, epsilon, 1⟩]
        ++ (n.states.filter (fun s => s.isAccept)).flatMap
            (fun s => [⟨s.id + 2, epsilon, n.startState + 2⟩, ⟨s.id + 2, epsilon, 1⟩])
        ++ n.transitions.map (fun t => ⟨t.from_ + 2, t.symbol, t.to_ + 2⟩) := by
  have hm := closureIdMap_of_wf n hp
  rw [closure_transitions, hm _ hs]
  congr 1
  · congr 1
    apply List.flatMap_congr
    intro s hs'
    have hsid : IsStateId n s.id := List.mem_map.2 ⟨s, (List.mem_filter.1 hs').1, rfl⟩
    simp only [closureLoopEdges, hm _ hsid, hm _ hs]
  · apply List.map_congr_left
    intro t ht'
    simp only [remap, hm _ (ht t ht').1, hm _ (ht t ht').2]

theorem closure_states_length (n : NFA) :
    (buildClosureNFA n).states.length = n.states.length + 2 := by
  rw [closure_states]
  simp [importedStates_length]

theorem union_states_length (n1 n2 : NFA) :
    (buildUnionNFA n1 n2).states.length = 2 + n1.states.length + n2.states.length := by
  rw [union_states]
  simp [importedStates_length]
  omega

theorem concat_states_length (n1 n2 : NFA) :
    (buildConcatNFA n1 n2).states.length = n1.states.length + n2.states.length := by
  simp [buildConcatNFA, demote]

theorem concat_stateIds (n1 n2 : NFA) :
    stateIds (buildConcatNFA n1 n2)
      = stateIds n1 ++ (stateIds n2).map (fun x => x + (n1.states.length : Int)) := by
  unfold stateIds buildConcatNFA
  simp only [demote_map_id, List.map_append, List.map_map]
  rfl

theorem concat_contiguous (n1 n2 : NFA) (h1 : ContiguousIds n1) (h2 : ContiguousIds n2) :
    ContiguousIds (buildConcatNFA n1 n2) := by
  refine ⟨?_, fun x => ?_⟩
  · rw [concat_stateIds, List.nodup_append]
    refine ⟨h1.1, @List.Nodup.map _ _ _ (fun x : Int => x + (n1.states.length : Int))
      (fun a b hab => by simpa using hab) h2.1, ?_⟩
    intro x hx1 hx2
    obtain ⟨y, hy, rfl⟩ := List.mem_map.1 hx2
    have := ((h1.2 _).1 hx1).2
    have := ((h2.2 y).1 hy).1
    omega
  · rw [concat_stateIds, concat_states_length, List.mem_append, List.mem_map]
    constructor
    · rintro (hx | ⟨y, hy, rfl⟩)
      · have := (h1.2 x).1 hx
        push_cast; omega
      · have := (h2.2 y).1 hy
        push_cast; omega
    · intro hx
      by_cases hlt : x < n1.states.length
      · exact Or.inl ((h1.2 x).2 ⟨hx.1, hlt⟩)
      · refine Or.inr ⟨x - n1.states.length, (h2.2 _).2 ?_, by omega⟩
        push_cast at hx
        omega

/-! ## Invariants of the returned fragments -/

/-- C13: the state ids of `buildSymbolNFA(c)`, `buildStringLiteralNFA(str)`,
`buildClosureNFA(n)` and `buildUnionNFA(n1, n2)` are pairwise distinct and are exactly
`{0, ..., N-1}` for `N` the number of states, for arbitrary inputs; those of
`buildConcatNFA(n1, n2)` are pairwise distinct and exactly
`{0, ..., |n1.states| + |n2.states| - 1}` whenever both inputs satisfy the invariant. -/
theorem contiguousIds_of_builders :
    (∀ c : Char, ContiguousIds (buildSymbolNFA c)) ∧
      (∀ str : List Char, ContiguousIds (buildStringLiteralNFA str)) ∧
      (∀ n : NFA, ContiguousIds (buildClosureNFA n)) ∧
      (∀ n1 n2 : NFA, ContiguousIds (buildUnionNFA n1 n2)) ∧
      (∀ n1 n2 : NFA, ContiguousIds n1 → ContiguousIds n2 →
        (stateIds (buildConcatNFA n1 n2)).Nodup ∧
        ∀ x : Int, x ∈ stateIds (buildConcatNFA n1 n2)
          ↔ 0 ≤ x ∧ x < (n1.states.length : Int) + n2.states.length) := by
  refine ⟨fun c => contiguous_of_positional (positional_symbol c),
    fun str => contiguous_of_positional (positional_literal str),
    fun n => contiguous_of_positional (positional_closure n),
    fun n1 n2 => contiguous_of_positional (positional_union n1 n2), ?_⟩
  intro n1 n2 h1 h2
  have h := concat_contiguous n1 n2 h1 h2
  refine ⟨h.1, fun x => ?_⟩
  rw [h.2 x, concat_states_length]
  push_cast
  rfl

/-- A witness for C13: concatenating the one-symbol fragments for `.` and `0`. -/
theorem contiguousIds_of_builders_witness :
    ContiguousIds (buildSymbolNFA '.') ∧ ContiguousIds (buildSymbolNFA '0') ∧
      (stateIds (buildConcatNFA (buildSymbolNFA '.') (buildSymbolNFA '0'))).Nodup :=
  ⟨contiguous_of_positional (positional_symbol '.'),
    contiguous_of_positional (positional_symbol '0'),
    (contiguousIds_of_builders.2.2.2.2 _ _ (contiguous_of_positional (positional_symbol '.'))
      (contiguous_of_positional (positional_symbol '0'))).1⟩

/-- C20: in every fragment returned by `buildSymbolNFA`, `buildStringLiteralNFA`,
`buildClosureNFA` and `buildUnionNFA`, for any input, and by `buildConcatNFA` when both
inputs have the property, the state stored at list position `i` has id `i`. Under this
property the id map of the closure is the offset 2 and the id map of the union is the
offset `2 + |n1.states|` on the ids of the second operand; contiguity of the id set
alone does not give it: `swappedPair` has ids `{0, 1}`, is not positional, and its
closure id map is not the offset 2. -/
theorem positionalIds_of_builders :
    (∀ c : Char, PositionalIds (buildSymbolNFA c)) ∧
      (∀ str : List Char, PositionalIds (buildStringLiteralNFA str)) ∧
      (∀ n : NFA, PositionalIds (buildClosureNFA n)) ∧
      (∀ n1 n2 : NFA, PositionalIds (buildUnionNFA n1 n2)) ∧
      (∀ n1 n2 : NFA, PositionalIds n1 → PositionalIds n2 →
        PositionalIds (buildConcatNFA n1 n2)) ∧
      (∀ n : NFA, PositionalIds n → ∀ x : Int, IsStateId n x →
        (closureIdMap n).get x = x + 2) ∧
      (∀ n1 n2 : NFA, PositionalIds n2 → ∀ x : Int, IsStateId n2 x →
        (unionIdMap n1 n2).get x = x + 2 + n1.states.length) ∧
      (ContiguousIds swappedPair ∧ ¬ PositionalIds swappedPair ∧
        IsStateId swappedPair 1 ∧ (closureIdMap swappedPair).get 1 ≠ 1 + 2) := by
  refine ⟨positional_symbol, positional_literal, positional_closure, positional_union,
    positional_concat, closureIdMap_of_wf, unionIdMap_second, ⟨?_, ?_⟩, by decide, by decide,
    by decide⟩
  · decide
  · intro x
    simp only [stateIds, swappedPair, List.map_cons, List.map_nil, List.mem_cons,
      List.not_mem_nil, or_false, List.length_cons, List.length_nil]
    push_cast
    omega

/-- A witness for C20: concatenating the one-symbol fragments for `a` and `b`, and the
closure id map of the fragment for `a` at its accept id. -/
theorem positionalIds_of_builders_witness :
    PositionalIds (buildSymbolNFA 'a') ∧ PositionalIds (buildSymbolNFA 'b') ∧
      PositionalIds (buildConcatNFA (buildSymbolNFA 'a') (buildSymbolNFA 'b')) ∧
      IsStateId (buildSymbolNFA 'a') 1 ∧
      (closureIdMap (buildSymbolNFA 'a')).get 1 = 1 + 2 :=
  ⟨by decide, by decide,
    positionalIds_of_builders.2.2.2.2.1 (buildSymbolNFA 'a') (buildSymbolNFA 'b')
      (by decide) (by decide),
    by decide,
    positionalIds_of_builders.2.2.2.2.2.1 (buildSymbolNFA 'a') (by decide) 1 (by decide)⟩

/-! ## The shape of union, closure and concatenation -/

theorem importedStates_filter_pos (k : Int) (ss : List NFAState)
    (h : ∃ s ∈ ss, s.isAccept = true) :
    0 < ((importedStates k ss).filter (fun s => s.isAccept)).length := by
  obtain ⟨s, hs, hflag⟩ := h
  obtain ⟨i, hi⟩ := List.mem_iff_getElem?.1 hs
  have hmem : (⟨k + i, true⟩ : NFAState) ∈ importedStates k ss := by
    apply List.mem_iff_getElem?.2
    exact ⟨i, by rw [importedStates_getElem?, hi]; simp [hflag]⟩
  exact List.length_pos_of_mem (List.mem_filter.2 ⟨hmem, rfl⟩)

/-- C17: for any fragments, `buildUnionNFA(n1, n2)` has `startState = 0` and
`acceptState = 1`, state 0 non-accepting and state 1 accepting, exactly
`2 + |n1.states| + |n2.states|` states, and keeps the imported accept flags: the state
at position `2 + i` carries the flag of the `i`-th state of `n1`, the state at position
`2 + |n1.states| + j` the flag of the `j`-th state of `n2`. When each input has an
accept-flagged state, the result has more than one accept-flagged state. -/
theorem buildUnionNFA_keeps_flags (n1 n2 : NFA) :
    (buildUnionNFA n1 n2).startState = 0 ∧ (buildUnionNFA n1 n2).acceptState = 1 ∧
      (buildUnionNFA n1 n2).states[0]? = some ⟨0, false⟩ ∧
      (buildUnionNFA n1 n2).states[1]? = some ⟨1, true⟩ ∧
      (buildUnionNFA n1 n2).states.length = 2 + n1.states.length + n2.states.length ∧
      (∀ i : Nat, i < n1.states.length →
        ((buildUnionNFA n1 n2).states[2 + i]?).map (fun s => s.isAccept)
          = (n1.states[i]?).map (fun s => s.isAccept)) ∧
      (∀ j : Nat, j < n2.states.length →
        ((buildUnionNFA n1 n2).states[2 + n1.states.length + j]?).map (fun s => s.isAccept)
          = (n2.states[j]?).map (fun s => s.isAccept)) ∧
      ((∃ s ∈ n1.states, s.isAccept = true) → (∃ s ∈ n2.states, s.isAccept = true) →
        1 < ((buildUnionNFA n1 n2).states.filter (fun s => s.isAccept)).length) := by
  refine ⟨rfl, rfl, ?_, ?_, union_states_length n1 n2, ?_, ?_, ?_⟩
  · rw [union_states]; simp
  · rw [union_states]; simp
  · intro i hi
    rw [union_states, List.getElem?_append_left (by simp [importedStates_length]; omega),
      List.getElem?_append_right (by simp)]
    simp only [List.length_cons, List.length_nil, Nat.add_sub_cancel_left,
      importedStates_getElem?, Option.map_map]
    rfl
  · intro j hj
    rw [union_states, List.getElem?_append_right (by simp [importedStates_length]; omega)]
    have hidx : 2 + n1.states.length + j
        - (([⟨0, false⟩, ⟨1, true⟩] : List NFAState) ++ importedStates 2 n1.states).length
        = j := by
      simp only [List.length_append, List.length_cons, List.length_nil,
        importedStates_length]
      omega
    rw [hidx, importedStates_getElem?, Option.map_map]
    rfl
  · intro h1 h2
    rw [union_states, List.filter_append, List.filter_append, List.length_append,
      List.length_append]
    have := importedStates_filter_pos 2 n1.states h1
    have := importedStates_filter_pos (2 + n1.states.length) n2.states h2
    have h01 : (([⟨0, false⟩, ⟨1, true⟩] : List NFAState).filter
        (fun s => s.isAccept)).length = 1 := rfl
    omega

/-- A witness for C17: the union of the one-symbol fragments for `0` and `1` has three
accept-flagged states. -/
theorem buildUnionNFA_keeps_flags_witness :
    (∃ s ∈ (buildSymbolNFA '0').states, s.isAccept = true) ∧
      (∃ s ∈ (buildSymbolNFA '1').states, s.isAccept = true) ∧
      1 < ((buildUnionNFA (buildSymbolNFA '0') (buildSymbolNFA '1')).states.filter
        (fun s => s.isAccept)).length :=
  ⟨by decide, by decide,
    (buildUnionNFA_keeps_flags (buildSymbolNFA '0') (buildSymbolNFA '1')).2.2.2.2.2.2.2
      (by decide) (by decide)⟩

/-- C18: for every fragment `n` in which the `i`-th state has id `i` and the start id
and every transition endpoint are ids of its states, the transition list of
`buildClosureNFA(n)` is exactly `(0, "ε", n.startState + 2)`, `(0, "ε", 1)`, then for
each accept-flagged state `s` of `n` in list order the pair
`(s.id + 2, "ε", n.startState + 2)`, `(s.id + 2, "ε", 1)`, then every transition
`(f, a, t)` of `n` as `(f + 2, a, t + 2)` in the original order; and `startState = 0`,
`acceptState = 1`. -/
theorem buildClosureNFA_transitions (n : NFA) (hp : PositionalIds n)
    (hs : IsStateId n n.startState)
    (ht : ∀ t ∈ n.transitions, IsStateId n t.from_ ∧ IsStateId n t.to_) :
    (buildClosureNFA n).transitions
        = [⟨0, epsilon, n.startState + 2⟩, ⟨0, epsilon, 1⟩]
          ++ (n.states.filter (fun s => s.isAccept)).flatMap
              (fun s => [⟨s.id + 2, epsilon, n.startState + 2⟩, ⟨s.id + 2, epsilon, 1⟩])
          ++ n.transitions.map (fun t => ⟨t.from_ + 2, t.symbol, t.to_ + 2⟩) ∧
      (buildClosureNFA n).startState = 0 ∧ (buildClosureNFA n).acceptState = 1 :=
  ⟨closure_transitions_of_wf n hp hs ht, rfl, rfl⟩

/-- A witness for C18: the closure of the one-symbol fragment for `a` has the transitions
`(0,ε,2), (0,ε,1), (3,ε,2), (3,ε,1), (2,a,3)`. -/
theorem buildClosureNFA_transitions_witness :
    PositionalIds (buildSymbolNFA 'a') ∧
      IsStateId (buildSymbolNFA 'a') (buildSymbolNFA 'a').startState ∧
      (∀ t ∈ (buildSymbolNFA 'a').transitions,
        IsStateId (buildSymbolNFA 'a') t.from_ ∧ IsStateId (buildSymbolNFA 'a') t.to_) ∧
      (buildClosureNFA (buildSymbolNFA 'a')).transitions
        = [⟨0, epsilon, 2⟩, ⟨0, epsilon, 1⟩, ⟨3, epsilon, 2⟩, ⟨3, epsilon, 1⟩,
           ⟨2, QString.ofChar 'a', 3⟩] :=
  ⟨by decide, by decide, by decide,
    (buildClosureNFA_transitions (buildSymbolNFA 'a') (by decide) (by decide)
      (by decide)).1.trans (by decide)⟩

theorem demote_append (a : Int) (l1 l2 : List NFAState) :
    demote a (l1 ++ l2) = demote a l1 ++ demote a l2 := by
  simp [demote]

/-- With positional ids the demotion of the concatenation leaves the imported states
alone: their shifted ids lie above every id of the first operand. -/
theorem concat_states_of_wf (n1 n2 : NFA) (h1 : PositionalIds n1)
    (ha : IsStateId n1 n1.acceptState) (h2 : PositionalIds n2) :
    (buildConcatNFA n1 n2).states
      = n1.states.map
          (fun s => if s.id = n1.acceptState then { s with isAccept := false } else s)
        ++ n2.states.map (fun s => ⟨s.id + n1.states.length, s.isAccept⟩) := by
  have hb := (positional_mem_iff h1 _).1 ha
  show demote n1.acceptState (n1.states
    ++ n2.states.map (fun s => ⟨s.id + n1.states.length, s.isAccept⟩)) = _
  rw [demote_append]
  congr 1
  unfold demote
  rw [List.map_map]
  apply List.map_congr_left
  intro s hs
  have hs0 := ((positional_mem_iff h2 s.id).1 (List.mem_map.2 ⟨s, hs, rfl⟩)).1
  have hne : s.id + (n1.states.length : Int) ≠ n1.acceptState := by omega
  simp [Function.comp, hne]

/-- C16: for fragments `n1`, `n2` in which the `i`-th state has id `i` and the accept id
of `n1` is an id of its states, `buildConcatNFA(n1, n2)` has `startState = n1.startState`
and `acceptState = n2.acceptState + |n1.states|`; its transition list is `n1`'s
transitions unchanged, then the epsilon edge
`(n1.acceptState, "ε", n2.startState + |n1.states|)`, then `n2`'s transitions with both
endpoints shifted by `|n1.states|`; its state list is `n1`'s states with only the state
of id `n1.acceptState` demoted, followed by `n2`'s states with ids shifted by
`|n1.states|` and flags unchanged. -/
theorem buildConcatNFA_shape (n1 n2 : NFA) (h1 : PositionalIds n1)
    (ha : IsStateId n1 n1.acceptState) (h2 : PositionalIds n2) :
    (buildConcatNFA n1 n2).startState = n1.startState ∧
      (buildConcatNFA n1 n2).acceptState = n2.acceptState + n1.states.length ∧
      (buildConcatNFA n1 n2).transitions
        = n1.transitions ++ [⟨n1.acceptState, epsilon, n2.startState + n1.states.length⟩]
          ++ n2.transitions.map
              (fun t => ⟨t.from_ + n1.states.length, t.symbol, t.to_ + n1.states.length⟩) ∧
      (buildConcatNFA n1 n2).states
        = n1.states.map
            (fun s => if s.id = n1.acceptState then { s with isAccept := false } else s)
          ++ n2.states.map (fun s => ⟨s.id + n1.states.length, s.isAccept⟩) :=
  ⟨rfl, rfl, rfl, concat_states_of_wf n1 n2 h1 ha h2⟩

/-- A witness for C16: concatenating the one-symbol fragments for `.` and `0`. -/
theorem buildConcatNFA_shape_witness :
    PositionalIds (buildSymbolNFA '.') ∧
      IsStateId (buildSymbolNFA '.') (buildSymbolNFA '.').acceptState ∧
      PositionalIds (buildSymbolNFA '0') ∧
      (buildConcatNFA (buildSymbolNFA '.') (buildSymbolNFA '0')).states
        = [⟨0, false⟩, ⟨1, false⟩, ⟨2, false⟩, ⟨3, true⟩] :=
  ⟨by decide, by decide, by decide,
    (buildConcatNFA_shape (buildSymbolNFA '.') (buildSymbolNFA '0') (by decide) (by decide)
      (by decide)).2.2.2.trans (by decide)⟩

/-! ## A single accept marker after concatenation -/

/-- In a list with pairwise distinct ids whose accept-flagged states are exactly those of
id `a`, the accept-flagged states are the single state `(a, true)`. -/
theorem filter_single_accept (l : List NFAState) (a : Int)
    (hnd : (l.map (fun s => s.id)).Nodup) (ha : a ∈ l.map (fun s => s.id))
    (hacc : ∀ s ∈ l, s.isAccept = true ↔ s.id = a) :
    l.filter (fun s => s.isAccept) = [⟨a, true⟩] := by
  induction l with
  | nil => simp at ha
  | cons s l ih =>
    simp only [List.map_cons, List.nodup_cons] at hnd
    by_cases hs : s.id = a
    · have hflag : s.isAccept = true := (hacc s (List.mem_cons_self _ _)).2 hs
      have hrest : l.filter (fun s => s.isAccept) = [] := by
        rw [List.filter_eq_nil_iff]
        intro r hr hrflag
        have hrid := (hacc r (List.mem_cons_of_mem _ hr)).1 hrflag
        exact hnd.1 (List.mem_map.2 ⟨r, hr, hrid.trans hs.symm⟩)
      rw [List.filter_cons, if_pos hflag, hrest]
      cases s
      simp only at hs hflag
      rw [hs, hflag]
    · have hflag : ¬ s.isAccept = true := fun h => hs ((hacc s (List.mem_cons_self _ _)).1 h)
      rw [List.filter_cons, if_neg hflag]
      apply ih hnd.2
      · simp only [List.map_cons, List.mem_cons] at ha
        rcases ha with ha | ha
        · exact absurd ha.symm hs
        · exact ha
      · intro r hr
        exact hacc r (List.mem_cons_of_mem _ hr)

/-- C19: for fragments `n1`, `n2` in which the `i`-th state has id `i`, the accept id is
an id of the fragment's states, and the only accept-flagged state is the declared accept
state, `buildConcatNFA(n1, n2)` has exactly one accept-flagged state, the state whose id
is the result's `acceptState = n2.acceptState + |n1.states|`. -/
theorem buildConcatNFA_single_accept (n1 n2 : NFA)
    (h1 : PositionalIds n1) (ha1 : IsStateId n1 n1.acceptState)
    (hacc1 : ∀ s ∈ n1.states, s.isAccept = true ↔ s.id = n1.acceptState)
    (h2 : PositionalIds n2) (ha2 : IsStateId n2 n2.acceptState)
    (hacc2 : ∀ s ∈ n2.states, s.isAccept = true ↔ s.id = n2.acceptState) :
    (buildConcatNFA n1 n2).states.filter (fun s => s.isAccept)
        = [⟨(buildConcatNFA n1 n2).acceptState, true⟩] ∧
      (buildConcatNFA n1 n2).acceptState = n2.acceptState + n1.states.length := by
  refine ⟨?_, rfl⟩
  rw [concat_states_of_wf n1 n2 h1 ha1 h2, List.filter_append]
  have hfirst : (n1.states.map (fun s =>
      if s.id = n1.acceptState then { s with isAccept := false } else s)).filter
      (fun s => s.isAccept) = [] := by
    rw [List.filter_eq_nil_iff]
    intro r hr
    obtain ⟨s, hs, rfl⟩ := List.mem_map.1 hr
    by_cases hid : s.id = n1.acceptState
    · simp [hid]
    · simp only [hid, if_false]
      exact fun h => hid ((hacc1 s hs).1 h)
  have hsecond : (n2.states.map (fun s =>
      (⟨s.id + n1.states.length, s.isAccept⟩ : NFAState))).filter (fun s => s.isAccept)
      = [⟨n2.acceptState + n1.states.length, true⟩] := by
    rw [List.filter_map]
    have hf : (n2.states.filter ((fun s : NFAState => s.isAccept)
        ∘ fun s => (⟨s.id + n1.states.length, s.isAccept⟩ : NFAState)))
        = n2.states.filter (fun s => s.isAccept) := rfl
    rw [hf, filter_single_accept n2.states n2.acceptState (positional_nodup h2) ha2 hacc2]
    rfl
  rw [hfirst, hsecond]
  rfl

/-- A witness for C19: concatenating the one-symbol fragments for `.` and `0` leaves the
single accept-flagged state `(3, true)`. -/
theorem buildConcatNFA_single_accept_witness :
    PositionalIds (buildSymbolNFA '.') ∧ PositionalIds (buildSymbolNFA '0') ∧
      (buildConcatNFA (buildSymbolNFA '.') (buildSymbolNFA '0')).states.filter
          (fun s => s.isAccept) = [⟨3, true⟩] :=
  ⟨by decide, by decide,
    (buildConcatNFA_single_accept (buildSymbolNFA '.') (buildSymbolNFA '0')
      (by decide) (by decide) (by decide) (by decide) (by decide) (by decide)).1.trans
      (by decide)⟩

/-! ## Referential closure -/

theorem isStateId_of_bounds {n : NFA} (hp : PositionalIds n) {x : Int} (h0 : 0 ≤ x)
    (h1 : x < n.states.length) : IsStateId n x :=
  (positional_mem_iff hp x).2 ⟨h0, h1⟩

theorem literal_states_length (str : List Char) :
    (buildStringLiteralNFA str).states.length = str.length + 2 := by
  rw [buildStringLiteralNFA_eq]
  simp [chainStates_length]

theorem symbol_referentiallyClosed (c : Char) : ReferentiallyClosed (buildSymbolNFA c) := by
  simp [ReferentiallyClosed, IsStateId, buildSymbolNFA, getNextId, freshCounter]

theorem literal_referentiallyClosed (str : List Char) :
    ReferentiallyClosed (buildStringLiteralNFA str) := by
  have hp := positional_literal str
  have hlen := literal_states_length str
  have hid : ∀ x : Int, 0 ≤ x → x < (str.length : Int) + 2 →
      IsStateId (buildStringLiteralNFA str) x := by
    intro x h0 h1
    exact isStateId_of_bounds hp h0 (by rw [hlen]; push_cast; exact h1)
  have hs : (buildStringLiteralNFA str).startState = 0 := by
    rw [buildStringLiteralNFA_eq]
  have ha : (buildStringLiteralNFA str).acceptState = (str.length : Int) + 1 := by
    rw [buildStringLiteralNFA_eq]
  have ht : (buildStringLiteralNFA str).transitions
      = chainEdges 0 str ++ [⟨str.length, epsilon, (str.length : Int) + 1⟩] := by
    rw [buildStringLiteralNFA_eq]
  refine ⟨by rw [hs]; exact hid 0 (le_refl _) (by omega),
    by rw [ha]; exact hid _ (by omega) (by omega), ?_⟩
  intro t htm
  rw [ht, List.mem_append, List.mem_singleton] at htm
  rcases htm with htm | rfl
  · obtain ⟨j, c, hj, rfl⟩ := mem_chainEdges htm
    have hjlt : j < str.length := (List.getElem?_eq_some_iff.1 hj).1
    exact ⟨hid _ (by simp only; omega) (by simp only; omega),
      hid _ (by simp only; omega) (by simp only; omega)⟩
  · exact ⟨hid _ (by simp only; omega) (by simp only; omega),
      hid _ (by simp only; omega) (by simp only; omega)⟩

theorem closure_referentiallyClosed (n : NFA) (hwf : WellFormed n) :
    ReferentiallyClosed (buildClosureNFA n) := by
  have hp := positional_closure n
  have hlen := closure_states_length n
  have hid : ∀ x : Int, 0 ≤ x → x < (n.states.length : Int) + 2 →
      IsStateId (buildClosureNFA n) x := by
    intro x h0 h1
    exact isStateId_of_bounds hp h0 (by rw [hlen]; push_cast; exact h1)
  have hsb := hwf.start_bounds
  refine ⟨hid 0 (le_refl _) (by omega), hid 1 (by omega) (by omega), ?_⟩
  intro t htm
  rw [closure_transitions_of_wf n hwf.1 hwf.2.1 hwf.2.2.2] at htm
  simp only [List.mem_append, List.mem_cons, List.mem_singleton, List.not_mem_nil, or_false,
    List.mem_flatMap, List.mem_filter, List.mem_map] at htm
  rcases htm with ((rfl | rfl) | ⟨s, ⟨hs, -⟩, rfl | rfl⟩) | ⟨t', ht', rfl⟩
  · exact ⟨hid _ (by simp only; omega) (by simp only; omega),
      hid _ (by simp only; omega) (by simp only; omega)⟩
  · exact ⟨hid _ (by simp only; omega) (by simp only; omega),
      hid _ (by simp only; omega) (by simp only; omega)⟩
  · have hb := (positional_mem_iff hwf.1 s.id).1 (List.mem_map.2 ⟨s, hs, rfl⟩)
    exact ⟨hid _ (by simp only; omega) (by simp only; omega),
      hid _ (by simp only; omega) (by simp only; omega)⟩
  · have hb := (positional_mem_iff hwf.1 s.id).1 (List.mem_map.2 ⟨s, hs, rfl⟩)
    exact ⟨hid _ (by simp only; omega) (by simp only; omega),
      hid _ (by simp only; omega) (by simp only; omega)⟩
  · have hf := hwf.from_bounds ht'
    have hto := hwf.to_bounds ht'
    exact ⟨hid _ (by simp only; omega) (by simp only; omega),
      hid _ (by simp only; omega) (by simp only; omega)⟩

theorem concat_referentiallyClosed (n1 n2 : NFA) (h1 : WellFormed n1) (h2 : WellFormed n2) :
    ReferentiallyClosed (buildConcatNFA n1 n2) := by
  have hp := positional_concat n1 n2 h1.1 h2.1
  have hlen := concat_states_length n1 n2
  have hid : ∀ x : Int, 0 ≤ x → x < (n1.states.length : Int) + n2.states.length →
      IsStateId (buildConcatNFA n1 n2) x := by
    intro x h0 hx
    exact isStateId_of_bounds hp h0 (by rw [hlen]; push_cast; exact hx)
  have hs1 := h1.start_bounds
  have ha1 := h1.accept_bounds
  have hs2 := h2.start_bounds
  have ha2 := h2.accept_bounds
  refine ⟨hid _ (by show 0 ≤ n1.startState; omega) (by show n1.startState < _; omega),
    hid _ (by show 0 ≤ n2.acceptState + (n1.states.length : Int); omega)
      (by show n2.acceptState + (n1.states.length : Int) < _; omega), ?_⟩
  intro t htm
  rw [concat_transitions] at htm
  simp only [List.mem_append, List.mem_singleton, List.mem_map] at htm
  rcases htm with (htm | rfl) | ⟨t', ht', rfl⟩
  · have hf := h1.from_bounds htm
    have hto := h1.to_bounds htm
    exact ⟨hid _ (by omega) (by omega), hid _ (by omega) (by omega)⟩
  · exact ⟨hid _ (by simp only; omega) (by simp only; omega),
      hid _ (by simp only; omega) (by simp only; omega)⟩
  · have hf := h2.from_bounds ht'
    have hto := h2.to_bounds ht'
    exact ⟨hid _ (by simp only; omega) (by simp only; omega),
      hid _ (by simp only; omega) (by simp only; omega)⟩

/-- Every id of either operand is looked up, in the union's id map, at an id of an
imported state. -/
theorem unionIdMap_bounds (n1 n2 : NFA) (h1 : PositionalIds n1) (h2 : PositionalIds n2)
    (x : Int) (hx : IsStateId n1 x ∨ IsStateId n2 x) :
    2 ≤ (unionIdMap n1 n2).get x ∧
      (unionIdMap n1 n2).get x < 2 + (n1.states.length : Int) + n2.states.length := by
  by_cases hx2 : IsStateId n2 x
  · have hb := (positional_mem_iff h2 x).1 hx2
    rw [unionIdMap_second n1 n2 h2 x hx2]
    omega
  · have hx1 : IsStateId n1 x := hx.resolve_right hx2
    have hb := (positional_mem_iff h1 x).1 hx1
    rw [unionIdMap_first n1 n2 h1 x hx1 hx2]
    omega

theorem union_transitions (n1 n2 : NFA) :
    (buildUnionNFA n1 n2).transitions
      = [⟨0, epsilon, (unionIdMap n1 n2).get n1.startState⟩,
         ⟨0, epsilon, (unionIdMap n1 n2).get n2.startState⟩]
        ++ acceptEdges (unionIdMap n1 n2) 1 n1.states
        ++ acceptEdges (unionIdMap n1 n2) 1 n2.states
        ++ n1.transitions.map (remap (unionIdMap n1 n2))
        ++ n2.transitions.map (remap (unionIdMap n1 n2)) := rfl

theorem union_referentiallyClosed (n1 n2 : NFA) (h1 : WellFormed n1) (h2 : WellFormed n2) :
    ReferentiallyClosed (buildUnionNFA n1 n2) := by
  have hp := positional_union n1 n2
  have hlen := union_states_length n1 n2
  have hid : ∀ x : Int, 0 ≤ x → x < 2 + (n1.states.length : Int) + n2.states.length →
      IsStateId (buildUnionNFA n1 n2) x := by
    intro x h0 hx
    exact isStateId_of_bounds hp h0 (by rw [hlen]; push_cast; exact hx)
  have hm : ∀ x : Int, IsStateId n1 x ∨ IsStateId n2 x →
      IsStateId (buildUnionNFA n1 n2) ((unionIdMap n1 n2).get x) := by
    intro x hx
    have hb := unionIdMap_bounds n1 n2 h1.1 h2.1 x hx
    exact hid _ (by omega) hb.2
  have h0 : IsStateId (buildUnionNFA n1 n2) 0 := hid 0 (le_refl _) (by omega)
  have hone : IsStateId (buildUnionNFA n1 n2) 1 := hid 1 (by omega) (by omega)
  refine ⟨h0, hone, ?_⟩
  intro t htm
  rw [union_transitions] at htm
  simp only [List.mem_append, List.mem_cons, List.mem_singleton, List.not_mem_nil, or_false,
    acceptEdges, List.mem_map, List.mem_filter] at htm
  rcases htm with ((((rfl | rfl) | ⟨s, ⟨hs, -⟩, rfl⟩) | ⟨s, ⟨hs, -⟩, rfl⟩) | ⟨t', ht', rfl⟩) |
    ⟨t', ht', rfl⟩
  · exact ⟨h0, hm _ (Or.inl h1.2.1)⟩
  · exact ⟨h0, hm _ (Or.inr h2.2.1)⟩
  · exact ⟨hm _ (Or.inl (List.mem_map.2 ⟨s, hs, rfl⟩)), hone⟩
  · exact ⟨hm _ (Or.inr (List.mem_map.2 ⟨s, hs, rfl⟩)), hone⟩
  · exact ⟨hm _ (Or.inl (h1.2.2.2 t' ht').1), hm _ (Or.inl (h1.2.2.2 t' ht').2)⟩
  · exact ⟨hm _ (Or.inr (h2.2.2.2 t' ht').1), hm _ (Or.inr (h2.2.2.2 t' ht').2)⟩

/-- C14: in `buildSymbolNFA(c)` and `buildStringLiteralNFA(str)`, and in
`buildClosureNFA(n)`, `buildConcatNFA(n1, n2)` and `buildUnionNFA(n1, n2)` whenever the
inputs are well-formed, the `from` and `to` of every transition, the `startState` and
the `acceptState` are all ids of states present in the result. -/
theorem referentiallyClosed_of_builders :
    (∀ c : Char, ReferentiallyClosed (buildSymbolNFA c)) ∧
      (∀ str : List Char, ReferentiallyClosed (buildStringLiteralNFA str)) ∧
      (∀ n : NFA, WellFormed n → ReferentiallyClosed (buildClosureNFA n)) ∧
      (∀ n1 n2 : NFA, WellFormed n1 → WellFormed n2 →
        ReferentiallyClosed (buildConcatNFA n1 n2)) ∧
      (∀ n1 n2 : NFA, WellFormed n1 → WellFormed n2 →
        ReferentiallyClosed (buildUnionNFA n1 n2)) :=
  ⟨symbol_referentiallyClosed, literal_referentiallyClosed, closure_referentiallyClosed,
    concat_referentiallyClosed, union_referentiallyClosed⟩

/-- A witness for C14: the closure of the fragment for `a`, and the concatenation and
the union of the fragments for `.` and `0`. -/
theorem referentiallyClosed_of_builders_witness :
    WellFormed (buildSymbolNFA 'a') ∧ WellFormed (buildSymbolNFA '.') ∧
      WellFormed (buildSymbolNFA '0') ∧
      ReferentiallyClosed (buildClosureNFA (buildSymbolNFA 'a')) ∧
      ReferentiallyClosed (buildConcatNFA (buildSymbolNFA '.') (buildSymbolNFA '0')) ∧
      ReferentiallyClosed (buildUnionNFA (buildSymbolNFA '.') (buildSymbolNFA '0')) :=
  ⟨by decide, by decide, by decide,
    referentiallyClosed_of_builders.2.2.1 (buildSymbolNFA 'a') (by decide),
    referentiallyClosed_of_builders.2.2.2.1 (buildSymbolNFA '.') (buildSymbolNFA '0')
      (by decide) (by decide),
    referentiallyClosed_of_builders.2.2.2.2 (buildSymbolNFA '.') (buildSymbolNFA '0')
      (by decide) (by decide)⟩

/-! ## The language of the number automaton -/

theorem buildNumberNFA_transitions : buildNumberNFA.transitions = numberEdges := by
  decide

theorem mem_numberEdges {t : NFATransition} (h : t ∈ numberEdges) :
    t = ⟨0, epsilon, 4⟩ ∨ t = ⟨5, epsilon, 1⟩ ∨ t = ⟨7, epsilon, 1⟩ ∨
      t = ⟨4, QString.ofChar '0', 5⟩ ∨ t = ⟨4, QString.ofChar '.', 5⟩ ∨
      t = ⟨5, epsilon, 6⟩ ∨ t = ⟨6, QString.ofChar '0', 7⟩ := by
  simp only [numberEdges, List.mem_cons, List.not_mem_nil, or_false] at h
  tauto

/-- The words that lead from each state of the number automaton to its accept state. -/
theorem number_reach {p r : Int} {w : List Char} (h : Reach numberEdges p w r)
    (hr : r = 1) :
    (p = 1 → w = []) ∧ (p = 7 → w = []) ∧ (p = 6 → w = ['0']) ∧
      (p = 5 → w = [] ∨ w = ['0']) ∧
      (p = 4 → w = ['0'] ∨ w = ['.'] ∨ w = ['0', '0'] ∨ w = ['.', '0']) ∧
      (p = 0 → w = ['0'] ∨ w = ['.'] ∨ w = ['0', '0'] ∨ w = ['.', '0']) := by
  induction h with
  | refl p =>
    subst hr
    refine ⟨fun _ => rfl, ?_, ?_, ?_, ?_, ?_⟩ <;> intro h <;> omega
  | @eps p q r w hm _ ih =>
    obtain ⟨i1, i7, i6, i5, i4, i0⟩ := ih hr
    have he0 : epsilon ≠ QString.ofChar '0' := by decide
    have hed : epsilon ≠ QString.ofChar '.' := by decide
    rcases mem_numberEdges hm with h | h | h | h | h | h | h <;>
      simp only [NFATransition.mk.injEq] at h
    · obtain ⟨rfl, -, rfl⟩ := h
      refine ⟨?_, ?_, ?_, ?_, ?_, fun _ => i4 rfl⟩ <;> intro h <;> omega
    · obtain ⟨rfl, -, rfl⟩ := h
      refine ⟨?_, ?_, ?_, fun _ => Or.inl (i1 rfl), ?_, ?_⟩ <;> intro h <;> omega
    · obtain ⟨rfl, -, rfl⟩ := h
      refine ⟨?_, fun _ => i1 rfl, ?_, ?_, ?_, ?_⟩ <;> intro h <;> omega
    · exact absurd h.2.1 he0
    · exact absurd h.2.1 hed
    · obtain ⟨rfl, -, rfl⟩ := h
      refine ⟨?_, ?_, ?_, fun _ => Or.inr (i6 rfl), ?_, ?_⟩ <;> intro h <;> omega
    · exact absurd h.2.1 he0
  | @sym p q r c w hne hm _ ih =>
    obtain ⟨i1, i7, i6, i5, i4, i0⟩ := ih hr
    rcases mem_numberEdges hm with h | h | h | h | h | h | h <;>
      simp only [NFATransition.mk.injEq] at h
    · exact absurd h.2.1 hne
    · exact absurd h.2.1 hne
    · exact absurd h.2.1 hne
    · obtain ⟨rfl, hc, rfl⟩ := h
      have hc' : c = '0' := by simpa [QString.ofChar] using hc
      subst hc'
      refine ⟨?_, ?_, ?_, ?_, fun _ => ?_, ?_⟩
      any_goals (intro h; omega)
      rcases i5 rfl with rfl | rfl
      · exact Or.inl rfl
      · exact Or.inr (Or.inr (Or.inl rfl))
    · obtain ⟨rfl, hc, rfl⟩ := h
      have hc' : c = '.' := by simpa [QString.ofChar] using hc
      subst hc'
      refine ⟨?_, ?_, ?_, ?_, fun _ => ?_, ?_⟩
      any_goals (intro h; omega)
      rcases i5 rfl with rfl | rfl
      · exact Or.inr (Or.inl rfl)
      · exact Or.inr (Or.inr (Or.inr rfl))
    · exact absurd h.2.1 hne
    · obtain ⟨rfl, hc, rfl⟩ := h
      have hc' : c = '0' := by simpa [QString.ofChar] using hc
      subst hc'
      refine ⟨?_, ?_, fun _ => ?_, ?_, ?_, ?_⟩
      any_goals (intro h; omega)
      rw [i7 rfl]

/-- C21: the language of `buildNumberNFA()` is exactly the four strings `0`, `.`, `00`
and `.0`: for every input `w`, the automaton accepts `w` if and only if `w` is one of
these four. -/
theorem buildNumberNFA_language (w : List Char) :
    accepts buildNumberNFA w = true ↔
      w = ['0'] ∨ w = ['.'] ∨ w = ['0', '0'] ∨ w = ['.', '0'] := by
  constructor
  · intro h
    rw [accepts_iff, Accepts, buildNumberNFA_transitions] at h
    exact (number_reach h rfl).2.2.2.2.2 rfl
  · rintro (rfl | rfl | rfl | rfl) <;> decide

/-! ## The shared id map of the union -/

/-- When the second operand has at least as many states as the first, every id of the
first operand is also an id of the second. -/
theorem isStateId_second_of_le {n1 n2 : NFA} (hp1 : PositionalIds n1) (hp2 : PositionalIds n2)
    (hle : n1.states.length ≤ n2.states.length) {x : Int} (hx : IsStateId n1 x) :
    IsStateId n2 x := by
  have hb := (positional_mem_iff hp1 x).1 hx
  exact (positional_mem_iff hp2 x).2 ⟨hb.1, by omega⟩

/-- C22: for fragments `n1`, `n2` in which the `i`-th state has id `i` and the start id
and every transition endpoint are ids of the fragment's states, with
`|n1.states| ≤ |n2.states|`, no transition of `buildUnionNFA(n1, n2)` has its `from` or
its `to` in the id range `[2, 2 + |n1.states|)` of the states imported from `n1`, and the
first transition is the start edge `(0, "ε", n1.startState + 2 + |n1.states|)`, whose
target lies in the id range of the states imported from `n2`. -/
theorem buildUnionNFA_second_overwrites_first (n1 n2 : NFA)
    (hp1 : PositionalIds n1) (hs1 : IsStateId n1 n1.startState)
    (ht1 : ∀ t ∈ n1.transitions, IsStateId n1 t.from_ ∧ IsStateId n1 t.to_)
    (hp2 : PositionalIds n2) (hs2 : IsStateId n2 n2.startState)
    (ht2 : ∀ t ∈ n2.transitions, IsStateId n2 t.from_ ∧ IsStateId n2 t.to_)
    (hle : n1.states.length ≤ n2.states.length) :
    (∀ t ∈ (buildUnionNFA n1 n2).transitions,
        ¬ (2 ≤ t.from_ ∧ t.from_ < 2 + (n1.states.length : Int)) ∧
        ¬ (2 ≤ t.to_ ∧ t.to_ < 2 + (n1.states.length : Int))) ∧
      (buildUnionNFA n1 n2).transitions.head?
        = some ⟨0, epsilon, n1.startState + 2 + n1.states.length⟩ ∧
      (2 + (n1.states.length : Int) ≤ n1.startState + 2 + n1.states.length ∧
        n1.startState + 2 + n1.states.length
          < 2 + (n1.states.length : Int) + n2.states.length) := by
  have hm : ∀ x : Int, IsStateId n2 x →
      2 + (n1.states.length : Int) ≤ (unionIdMap n1 n2).get x := by
    intro x hx
    have hb := (positional_mem_iff hp2 x).1 hx
    rw [unionIdMap_second n1 n2 hp2 x hx]
    omega
  have h12 : ∀ x : Int, IsStateId n1 x → IsStateId n2 x :=
    fun x hx => isStateId_second_of_le hp1 hp2 hle hx
  have hsb := (positional_mem_iff hp1 _).1 hs1
  refine ⟨?_, ?_, by omega, by omega⟩
  · intro t htm
    rw [union_transitions] at htm
    simp only [List.mem_append, List.mem_cons, List.mem_singleton, List.not_mem_nil,
      or_false, acceptEdges, List.mem_map, List.mem_filter] at htm
    rcases htm with ((((rfl | rfl) | ⟨s, ⟨hs, -⟩, rfl⟩) | ⟨s, ⟨hs, -⟩, rfl⟩) |
      ⟨t', ht', rfl⟩) | ⟨t', ht', rfl⟩
    · have := hm _ (h12 _ hs1)
      exact ⟨by simp only; omega, by simp only; omega⟩
    · have := hm _ hs2
      exact ⟨by simp only; omega, by simp only; omega⟩
    · have := hm _ (h12 _ (List.mem_map.2 ⟨s, hs, rfl⟩))
      exact ⟨by simp only; omega, by simp only; omega⟩
    · have := hm _ (List.mem_map.2 ⟨s, hs, rfl⟩)
      exact ⟨by simp only; omega, by simp only; omega⟩
    · have hf := hm _ (h12 _ (ht1 t' ht').1)
      have hto := hm _ (h12 _ (ht1 t' ht').2)
      exact ⟨by simp only [remap]; omega, by simp only [remap]; omega⟩
    · have hf := hm _ (ht2 t' ht').1
      have hto := hm _ (ht2 t' ht').2
      exact ⟨by simp only [remap]; omega, by simp only [remap]; omega⟩
  · rw [union_transitions, unionIdMap_second n1 n2 hp2 _ (h12 _ hs1)]
    rfl

/-- A witness for C22: the union of the one-symbol fragment for `0` with the
concatenation of the fragments for `.` and `0`; its first transition is `(0, ε, 4)`. -/
theorem buildUnionNFA_second_overwrites_first_witness :
    PositionalIds (buildSymbolNFA '0') ∧
      PositionalIds (buildConcatNFA (buildSymbolNFA '.') (buildSymbolNFA '0')) ∧
      (buildSymbolNFA '0').states.length
        ≤ (buildConcatNFA (buildSymbolNFA '.') (buildSymbolNFA '0')).states.length ∧
      (buildUnionNFA (buildSymbolNFA '0')
          (buildConcatNFA (buildSymbolNFA '.') (buildSymbolNFA '0'))).transitions.head?
        = some ⟨0, epsilon, 4⟩ :=
  ⟨by decide, by decide, by decide,
    (buildUnionNFA_second_overwrites_first (buildSymbolNFA '0')
      (buildConcatNFA (buildSymbolNFA '.') (buildSymbolNFA '0'))
      (by decide) (by decide) (by decide) (by decide) (by decide) (by decide)
      (by decide)).2.1.trans (by decide)⟩

end CppCompilerFrontend
